import Mathlib

/-!
Decentralized file management system: chunk store, transfer protocol, directory service

A shallow embedding of `p2p/storage.go`, `p2p/tcp_server.go`, `p2p/communication.go`
and `bootstrap/bootstrap.go`, followed by the properties proved about it.

Conventions of the embedding.

* A byte is a `Fin 256`; a `[]byte` is a `List Byte`.
* Go strings that name files, peers and frame types are Lean `String`s.
* A file or directory is named by its node: the elements of its absolute path,
  root first, obtained by walking the path from the working directory (`.` stays,
  `..` goes to the parent, the root being its own parent).  There are no symbolic
  or hard links and names are compared exactly, so two paths name the same file
  exactly when they resolve to one node.
* The disk is the list of the files and directories created so far, most recent
  first; what is at a node is the most recent entry for it, and every node above
  an entry or above the working directory is a directory.  Nothing in the
  program deletes a file.
* Library functions whose result the program only passes on (`sha256.Sum256`,
  `json.Marshal`, `json.Unmarshal`), the working directory and the operating
  system's decision to accept or refuse a write are fields of an environment
  record `Env`.
-/

namespace P2P

/-! ## Bytes, hexadecimal rendering, paths -/

abbrev Byte := Fin 256

/-- The sixteen digits used by the `%x` verb. -/
def hexDigits : List Char := "0123456789abcdef".data

/-- Digit of a value below sixteen. -/
def hexDigit (n : Nat) : Char := hexDigits.getD n '0'

/-- Two lower-case hexadecimal digits of one byte, high nibble first. -/
def hexByte (b : Byte) : List Char := [hexDigit (b.val / 16), hexDigit (b.val % 16)]

/-- Characters of `fmt.Sprintf("%x", bs)` for a byte array `bs`. -/
def hexChars : List Byte → List Char
  | [] => []
  | b :: bs => hexByte b ++ hexChars bs

/-- The string `fmt.Sprintf("%x", bs)`. -/
def hexString (bs : List Byte) : String := ⟨hexChars bs⟩

/-- Elements of a path between its separators (`/`); never the empty list. -/
def splitSlash : List Char → List (List Char)
  | [] => [[]]
  | c :: cs =>
    if c = '/' then [] :: splitSlash cs
    else
      match splitSlash cs with
      | [] => [[c]]
      | e :: es => (c :: e) :: es

/-- One element consumed by `filepath.Clean`; `out` holds the elements kept so far,
last kept first.  Empty and `.` elements are dropped, `..` removes the element
before it when there is one to remove, is dropped at the root of a rooted path,
and is kept otherwise. -/
def cleanStep (rooted : Bool) (out : List (List Char)) (e : List Char) : List (List Char) :=
  if e = [] ∨ e = ['.'] then out
  else if e = ['.', '.'] then
    match out with
    | [] => if rooted then [] else [e]
    | top :: rest => if top = ['.', '.'] then e :: out else rest
  else e :: out

/-- Elements kept by `filepath.Clean`, last kept first. -/
def cleanElems (rooted : Bool) (p : List Char) : List (List Char) :=
  (splitSlash p).foldl (cleanStep rooted) []

/-- The kept elements written out with one separator between neighbours. -/
def joinSlash : List (List Char) → List Char
  | [] => []
  | e :: es =>
    match es with
    | [] => e
    | _ :: _ => e ++ '/' :: joinSlash es

/-- Go's `filepath.Clean` on a Unix path, over the characters of the path. -/
def cleanChars (p : List Char) : List Char :=
  if p = [] then ['.']
  else
    let rooted := p.head? = some '/'
    let body := joinSlash (cleanElems rooted p).reverse
    if rooted then '/' :: body
    else if body = [] then ['.'] else body

/-- Go's `filepath.Join` of two elements: empty elements are ignored and the
result is cleaned. -/
def filepathJoin (a b : String) : String :=
  if a ≠ "" then ⟨cleanChars (a.data ++ '/' :: b.data)⟩
  else if b ≠ "" then ⟨cleanChars b.data⟩
  else ""

/-! ## The disk -/

/-- The name of a file or directory: the elements of its absolute path, root first. -/
abbrev Node := List String

/-- What is at a node of the disk. -/
inductive Entry where
  /-- A regular file with its bytes. -/
  | file (content : List Byte)
  /-- A directory. -/
  | dir
deriving DecidableEq, Repr

/-- The disk: the files and directories created so far, most recent first. -/
abbrev FS := List (Node × Entry)

/-- Metadata that maps a filename to its list of chunk hashes. -/
structure MetaData where
  Filename : String
  ChunkHashes : List String
deriving DecidableEq, Repr

/-- Library functions, the working directory and the operating-system verdicts
the program depends on. -/
structure Env where
  /-- The absolute path of the working directory of the process. -/
  cwd : String
  /-- The digest `sha256.Sum256`. -/
  sha256 : List Byte → List Byte
  /-- The digest is an array of 32 bytes in Go; the model uses of this only that
  it is not empty. -/
  sha256_ne : ∀ chunk, sha256 chunk ≠ []
  /-- The encoder `json.Marshal` on a `MetaData`; `none` is its error return. -/
  marshal : MetaData → Option (List Byte)
  /-- The decoder `json.Unmarshal` into a `MetaData`; `none` is its error return. -/
  unmarshal : List Byte → Option MetaData
  /-- Whether the system lets the directory at the node be created on the disk. -/
  canMkdir : FS → Node → Bool
  /-- Whether the system lets the bytes be written to the file at the node. -/
  canWrite : FS → Node → List Byte → Bool

/-- The node of the working directory. -/
def cwdNode (env : Env) : Node := ((cleanElems true env.cwd.data).reverse).map String.mk

/-- The node a path names: the walk over the elements of the path, from the
root for a rooted path and from the working directory otherwise. -/
def resolve (env : Env) (p : String) : Node :=
  let start := if p.data.head? = some '/' then [] else cleanElems true env.cwd.data
  (((splitSlash p.data).foldl (cleanStep true) start).reverse).map String.mk

/-- What is at a node: the most recent entry for it; a directory when the node
lies above the working directory or above an entry of the disk; else nothing. -/
def stat (env : Env) (fs : FS) (n : Node) : Option Entry :=
  match fs.lookup n with
  | some e => some e
  | none =>
    if n.isPrefixOf (cwdNode env) || fs.any (fun entry => n.isPrefixOf entry.1) then
      some Entry.dir
    else none

/-- The call `os.MkdirAll` of a directory whose parent exists: nothing happens
when the directory is there, the call fails when a file is there, and else the
directory is created if the system allows it.  `none` is the error return. -/
def osMkdirAll (env : Env) (fs : FS) (n : Node) : Option FS :=
  match stat env fs n with
  | some Entry.dir => some fs
  | some (Entry.file _) => none
  | none => if env.canMkdir fs n then some ((n, Entry.dir) :: fs) else none

/-- The call `os.WriteFile`: it fails on a directory and when the parent is
not a directory, and else creates or replaces the file if the system allows
it.  `none` is the error return, which leaves the disk as it was. -/
def osWriteFile (env : Env) (fs : FS) (n : Node) (data : List Byte) : Option FS :=
  match stat env fs n with
  | some Entry.dir => none
  | _ =>
    if stat env fs n.dropLast = some Entry.dir ∧ env.canWrite fs n data = true then
      some ((n, Entry.file data) :: fs)
    else none

/-- The call `os.ReadFile`: the bytes of a regular file, an error otherwise. -/
def osReadFile (env : Env) (fs : FS) (n : Node) : Option (List Byte) :=
  match stat env fs n with
  | some (Entry.file content) => some content
  | _ => none

/-! ## Chunk store (`p2p/storage.go`) -/

/-- The fixed size of a chunk. -/
def chunkSize : Nat := 4096

/-- The ways `StoreFile` and `RetrieveFile` report failure. -/
inductive StoreErr where
  /-- "failed to create chunks directory" -/
  | mkdir
  /-- "failed to write chunk <hash>" -/
  | writeChunk (hash : String)
  /-- "failed to marshal metadata" -/
  | marshalMeta
  /-- "failed to write metadata file" -/
  | writeMeta
  /-- "failed to read metadata file" -/
  | readMeta
  /-- "failed to unmarshal metadata" -/
  | unmarshalMeta
  /-- "failed to read chunk file <hash>" -/
  | readChunk (hash : String)
deriving DecidableEq, Repr

/-- The hash string of a chunk: `fmt.Sprintf("%x", sha256.Sum256(chunk))`. -/
def hashStr (env : Env) (chunk : List Byte) : String := hexString (env.sha256 chunk)

/-- The Go slice expression `data[i:j]`. -/
def slice (data : List Byte) (i j : Nat) : List Byte := (data.drop i).take (j - i)

/-- The loop of `chunkData`, started at index `i` with the chunks and hashes
collected so far.  `none` means the loop did not finish within `fuel` rounds. -/
def chunkLoop (env : Env) (data : List Byte) (size : Nat) :
    Nat → Nat → List (List Byte) → List String → Option (List (List Byte) × List String)
  | 0, i, chunks, hashes => if i < data.length then none else some (chunks, hashes)
  | fuel + 1, i, chunks, hashes =>
    if i < data.length then
      let end0 := i + size
      let end1 := if end0 > data.length then data.length else end0
      let chunk := slice data i end1
      let hashVal := hashStr env chunk
      chunkLoop env data size fuel (i + size) (chunks ++ [chunk]) (hashes ++ [hashVal])
    else some (chunks, hashes)

/-- Splits `data` into fixed-size chunks and computes the hash string of each.
With `size = 0` the Go loop never ends, which is the result `none`. -/
def chunkData (env : Env) (data : List Byte) (size : Nat) :
    Option (List (List Byte) × List String) :=
  chunkLoop env data size data.length 0 [] []

/-- The chunk-writing loop of `StoreFile` from index `i` on: a chunk is written
under its hash only when `os.Stat` finds nothing of that name.  The result is
the disk reached and the error returned, if any; `none` is an index out of
range. -/
def storeLoop (env : Env) (hashes : List String) :
    List (List Byte) → Nat → FS → Option (FS × Option StoreErr)
  | [], _, fs => some (fs, none)
  | chunk :: rest, i, fs =>
    match hashes[i]? with
    | none => none
    | some h =>
      let chunkFilename := filepathJoin "chunks" h
      match stat env fs (resolve env chunkFilename) with
      | none =>
        match osWriteFile env fs (resolve env chunkFilename) chunk with
        | some fs1 => storeLoop env hashes rest (i + 1) fs1
        | none => some (fs, some (StoreErr.writeChunk h))
      | some _ => storeLoop env hashes rest (i + 1) fs

/-- Stores a file: chunks it, makes sure the directory `chunks` exists, writes
the chunks that are not on disk yet, then writes the metadata file.  Returns
the disk reached and the error, if any; `none` means the call does not return. -/
def StoreFile (env : Env) (filename : String) (data : List Byte) (fs : FS) :
    Option (FS × Option StoreErr) :=
  match chunkData env data chunkSize with
  | none => none
  | some (chunks, hashes) =>
    match osMkdirAll env fs (resolve env "chunks") with
    | none => some (fs, some StoreErr.mkdir)
    | some fs0 =>
      match storeLoop env hashes chunks 0 fs0 with
      | none => none
      | some (fs1, some e) => some (fs1, some e)
      | some (fs1, none) =>
        match env.marshal { Filename := filename, ChunkHashes := hashes } with
        | none => some (fs1, some StoreErr.marshalMeta)
        | some metaData =>
          let metaFilename := filepathJoin "chunks" (filename ++ ".meta")
          match osWriteFile env fs1 (resolve env metaFilename) metaData with
          | some fs2 => some (fs2, none)
          | none => some (fs1, some StoreErr.writeMeta)

/-- The chunk-reading loop of `RetrieveFile`. -/
def readChunks (env : Env) (fs : FS) : List String → List Byte → Except StoreErr (List Byte)
  | [], fileData => Except.ok fileData
  | hash :: rest, fileData =>
    match osReadFile env fs (resolve env (filepathJoin "chunks" hash)) with
    | none => Except.error (StoreErr.readChunk hash)
    | some chunk => readChunks env fs rest (fileData ++ chunk)

/-- Reconstructs a file from its chunks using the stored metadata. -/
def RetrieveFile (env : Env) (filename : String) (fs : FS) : Except StoreErr (List Byte) :=
  match osReadFile env fs (resolve env (filepathJoin "chunks" (filename ++ ".meta"))) with
  | none => Except.error StoreErr.readMeta
  | some metaData =>
    match env.unmarshal metaData with
    | none => Except.error StoreErr.unmarshalMeta
    | some m => readChunks env fs m.ChunkHashes []

/-- The node of the chunk file of a chunk. -/
def chunkNode (env : Env) (chunk : List Byte) : Node :=
  resolve env (filepathJoin "chunks" (hashStr env chunk))

/-- The node of the metadata file of a filename. -/
def metaNode (env : Env) (filename : String) : Node :=
  resolve env (filepathJoin "chunks" (filename ++ ".meta"))

/-- The chunk-writing loop without the index: chunk and hash are taken together. -/
def storeAll (env : Env) : List (List Byte) → FS → FS × Option StoreErr
  | [], fs => (fs, none)
  | chunk :: rest, fs =>
    match stat env fs (chunkNode env chunk) with
    | none =>
      match osWriteFile env fs (chunkNode env chunk) chunk with
      | some fs1 => storeAll env rest fs1
      | none => (fs, some (StoreErr.writeChunk (hashStr env chunk)))
    | some _ => storeAll env rest fs

/-- The assumption made of the JSON library: decoding the encoding of a
metadata record whose hashes are hash strings of chunks succeeds and returns
that list of hashes. -/
def JsonRoundTrip (env : Env) : Prop :=
  ∀ (filename : String) (chunks : List (List Byte)) (b : List Byte),
    env.marshal { Filename := filename, ChunkHashes := chunks.map (hashStr env) } = some b →
    ∃ m1, env.unmarshal b = some m1 ∧ m1.ChunkHashes = chunks.map (hashStr env)

/-- The filename `g` is stored on the disk: its metadata file is there and is
one that `StoreFile` writes, that is, it decodes to a list of hash strings of
chunks. -/
def StoredName (env : Env) (fs : FS) (g : String) : Prop :=
  ∃ (b : List Byte) (m : MetaData) (chunks : List (List Byte)),
    osReadFile env fs (metaNode env g) = some b ∧
    env.unmarshal b = some m ∧ m.ChunkHashes = chunks.map (hashStr env)

/-- Consecutive fixed-size partition of `data`, written from the specification:
`ceil(len / size)` chunks, chunk `i` being `data[size*i .. min(size*(i+1), len))`. -/
def partitionSpec (data : List Byte) (size : Nat) : List (List Byte) :=
  (List.range ((data.length + size - 1) / size)).map
    (fun i => slice data (size * i) (min (size * (i + 1)) data.length))

/-- Three-byte big-endian code of a character, after the tag byte `1`. -/
def demoEncodeChar (c : Char) : List Byte :=
  [1, Fin.ofNat (c.toNat / 65536), Fin.ofNat (c.toNat / 256 % 256), Fin.ofNat (c.toNat % 256)]

/-- Code of a string: its characters, then the end byte `0`. -/
def demoEncodeChars : List Char → List Byte
  | [] => [0]
  | c :: cs => demoEncodeChar c ++ demoEncodeChars cs

/-- Code of a list of strings: the codes of the strings, one after the other. -/
def demoEncode : List String → List Byte
  | [] => []
  | h :: hs => demoEncodeChars h.data ++ demoEncode hs

/-- Decoder for `demoEncode`; `cur` is the string being read, last character
first, and `done` the strings read, last first. -/
def demoDecode : List Byte → List Char → List String → Option (List String)
  | [], cur, done => if cur = [] then some done.reverse else none
  | b :: rest, cur, done =>
    if b = 0 then demoDecode rest [] (⟨cur.reverse⟩ :: done)
    else
      match rest with
      | b2 :: b1 :: b0 :: rest1 =>
        demoDecode rest1 (Char.ofNat (b2.val * 65536 + b1.val * 256 + b0.val) :: cur) done
      | _ => none

/-- An environment used to evaluate the program on concrete inputs: the working
directory is `/proj`, the digest is the chunk after a zero byte, metadata is
encoded as the list of its hashes, and the system accepts every write. -/
def demoEnv : Env where
  cwd := "/proj"
  sha256 := fun b => 0 :: b
  sha256_ne := fun _ => List.cons_ne_nil _ _
  marshal := fun m => some (demoEncode m.ChunkHashes)
  unmarshal := fun b =>
    match demoDecode b [] [] with
    | none => none
    | some hs => some { Filename := "", ChunkHashes := hs }
  canMkdir := fun _ _ => true
  canWrite := fun _ _ _ => true

/-! ## Transfer protocol (`p2p/tcp_server.go`, `p2p/communication.go`) -/

/-- A frame of the transfer protocol.  A field left out of the encoded record
(`omitempty`) decodes to the empty value. -/
structure Message where
  /-- The field `Type` of the Go struct. -/
  Typ : String
  Filename : String
  Content : List Byte
deriving DecidableEq, Repr

/-- The bytes of a string literal made of ASCII characters. -/
def asciiBytes (s : String) : List Byte := s.data.map fun c => Fin.ofNat c.toNat

/-- The sending side of a connection: the frames written so far, oldest first,
and the network's verdict on each write, by the number of frames already sent. -/
structure Conn where
  sent : List Message
  accepts : Nat → Bool

/-- The call `encoder.Encode(m)` on a connection: the frame is appended when the
write is accepted; the flag tells whether the call returned without error. -/
def Conn.Encode (conn : Conn) (m : Message) : Conn × Bool :=
  if conn.accepts conn.sent.length then ({ conn with sent := conn.sent ++ [m] }, true)
  else (conn, false)

/-- An open file: whether it is a directory, and for a regular file its bytes
and the read offset. -/
structure File where
  isDir : Bool
  content : List Byte
  offset : Nat

/-- The error result of a read. -/
inductive ReadErr where
  /-- The value `io.EOF`. -/
  | eof
  /-- Any other error. -/
  | other
deriving DecidableEq, Repr

/-- The call `file.Read(buffer)` with a buffer of `bufLen` bytes.  On a
directory it fails with an error other than `io.EOF`.  On a regular file it
gives as many bytes as are left, up to `bufLen`, and `io.EOF` when none is left.
Returns the bytes read (`buffer[:n]`), the error and the file after the read. -/
def File.Read (f : File) (bufLen : Nat) : List Byte × Option ReadErr × File :=
  if f.isDir then ([], some ReadErr.other, f)
  else if bufLen = 0 then ([], none, f)
  else if f.content.length ≤ f.offset then ([], some ReadErr.eof, f)
  else
    let n := min bufLen (f.content.length - f.offset)
    (slice f.content f.offset (f.offset + n), none, { f with offset := f.offset + n })

/-- The read loop of `sendFile`.  The flag of the result is `true` when the loop
was left by `break` (end of file) and `false` when the function returned from
inside the loop; `none` means the loop did not finish within `fuel` rounds. -/
def sendLoop : Nat → File → Conn → Option (Conn × Bool)
  | 0, _, _ => none
  | fuel + 1, file, conn =>
    match file.Read 4096 with
    | (_, some ReadErr.eof, _) => some (conn, true)
    | (_, some ReadErr.other, _) => some (conn, false)
    | (chunk, none, file1) =>
      let response : Message := { Typ := "send_file_chunk", Filename := "", Content := chunk }
      match conn.Encode response with
      | (conn1, false) => some (conn1, false)
      | (conn1, true) => sendLoop fuel file1 conn1

/-- The call `os.Open`: it fails when nothing is at the node, and opens the file
or the directory that is there.  `none` is the error return. -/
def osOpen (env : Env) (fs : FS) (n : Node) : Option File :=
  match stat env fs n with
  | none => none
  | some Entry.dir => some { isDir := true, content := [], offset := 0 }
  | some (Entry.file content) => some { isDir := false, content := content, offset := 0 }

/-- Streams the requested file in chunks; the result is the connection after
the call, `none` when the call does not return. -/
def sendFile (env : Env) (fs : FS) (conn : Conn) (filename : String) : Option Conn :=
  let filePath := filepathJoin "shared_folder" filename
  match osOpen env fs (resolve env filePath) with
  | none =>
    let response : Message :=
      { Typ := "error", Filename := filename, Content := asciiBytes "File not found" }
    some (conn.Encode response).1
  | some file =>
    match sendLoop (file.content.length + 1) file conn with
    | none => none
    | some (conn1, false) => some conn1
    | some (conn1, true) =>
      let endMessage : Message := { Typ := "end_of_file", Filename := filename, Content := [] }
      some (conn1.Encode endMessage).1

/-- Processes one incoming connection of the file server; `incoming` is the
result of decoding the first frame, `none` when decoding fails. -/
def handleConnection (env : Env) (fs : FS) (conn : Conn) (incoming : Option Message) :
    Option Conn :=
  match incoming with
  | none => some conn
  | some request =>
    if request.Typ = "request_file" then sendFile env fs conn request.Filename
    else some conn

/-- A network peer with its ID, IP and port. -/
structure Peer where
  ID : String
  IP : String
  Port : String
deriving DecidableEq, Repr

/-- Go's `net.JoinHostPort`: the host is bracketed when it contains a colon. -/
def joinHostPort (host port : String) : String :=
  if ':' ∈ host.data then "[" ++ host ++ "]:" ++ port
  else host ++ ":" ++ port

/-- The peer's network address. -/
def Peer.Address (p : Peer) : String := joinHostPort p.IP p.Port

/-- What stands behind an address that accepts connections: whether the request
frame can be written, and the stream read back after it, frame by frame, `none`
standing for bytes that do not decode to a frame. -/
structure Remote where
  acceptsRequest : Bool
  reply : Message → List (Option Message)

/-- The ways `RequestFile` reports failure. -/
inductive RequestErr where
  /-- "[ERROR] Failed to connect to peer <address>" -/
  | connect
  /-- "[ERROR] Failed to send file request" -/
  | send
  /-- "[ERROR] Error receiving file chunk" -/
  | receive
  /-- "[ERROR] Peer responded with error: " followed by the given text. -/
  | peer (text : List Byte)
deriving DecidableEq, Repr

/-- The result of `RequestFile`: the bytes received, or the error returned with
no bytes. -/
inductive RequestResult where
  | ok (receivedData : List Byte)
  | error (e : RequestErr)
deriving DecidableEq, Repr

/-- The decode loop of `RequestFile` over the stream still to be read. -/
def recvLoop : List (Option Message) → List Byte → RequestResult
  | [], receivedData => RequestResult.ok receivedData
  | none :: _, _ => RequestResult.error RequestErr.receive
  | some response :: rest, receivedData =>
    if response.Typ = "error" then RequestResult.error (RequestErr.peer response.Content)
    else
      let receivedData1 :=
        if response.Typ = "send_file_chunk" then receivedData ++ response.Content
        else receivedData
      if response.Typ = "end_of_file" then RequestResult.ok receivedData1
      else recvLoop rest receivedData1

/-- Sends a file request and receives the file in chunks.  `dial` gives what
stands behind an address, `none` when the connection cannot be made. -/
def RequestFile (dial : String → Option Remote) (peer : Peer) (filename : String) :
    RequestResult :=
  match dial peer.Address with
  | none => RequestResult.error RequestErr.connect
  | some remote =>
    let request : Message := { Typ := "request_file", Filename := filename, Content := [] }
    if remote.acceptsRequest then recvLoop (remote.reply request) []
    else RequestResult.error RequestErr.send

/-- A connection that accepts every write and has carried no frame yet. -/
def freshConn : Conn := { sent := [], accepts := fun _ => true }

/-- The file server of a peer with disk `fs`, seen from a client over a
connection on which every write succeeds: the frames it answers a request with. -/
def servingPeer (env : Env) (fs : FS) : Remote where
  acceptsRequest := true
  reply := fun request =>
    match handleConnection env fs freshConn (some request) with
    | none => []
    | some conn => conn.sent.map some

/-- The `send_file_chunk` frame that carries `content`. -/
def chunkFrame (content : List Byte) : Message :=
  { Typ := "send_file_chunk", Filename := "", Content := content }

/-- The `end_of_file` frame for `filename`. -/
def endFrame (filename : String) : Message :=
  { Typ := "end_of_file", Filename := filename, Content := [] }

/-- The `error` frame sent for a file that cannot be opened. -/
def notFoundFrame (filename : String) : Message :=
  { Typ := "error", Filename := filename, Content := asciiBytes "File not found" }

end P2P

namespace Bootstrap

/-! ## Directory service (`bootstrap/bootstrap.go`) -/

/-- A point in time, in nanoseconds. -/
abbrev Time := Int

/-- A `time.Duration`: a signed 64-bit count of nanoseconds. -/
abbrev Duration := Int

/-- The largest `time.Duration`. -/
def maxDuration : Duration := 2 ^ 63 - 1

/-- The smallest `time.Duration`. -/
def minDuration : Duration := -(2 ^ 63)

/-- The duration `time.Minute`. -/
def Minute : Duration := 60 * 1000000000

/-- Go's `t.Sub(u)`: the difference `t - u`, or the largest (smallest) duration
when the difference does not fit. -/
def Sub (t u : Time) : Duration :=
  if t - u > maxDuration then maxDuration
  else if t - u < minDuration then minDuration
  else t - u

/-- Details of each peer. -/
structure PeerInfo where
  ID : String
  Addr : String
  LastSeen : Time
deriving DecidableEq, Repr

/-- The Go map `map[string]PeerInfo`, as the list of its entries in the order a
`range` loop visits them.  A Go map holds one entry per key (`UniqueKeys`). -/
abbrev PeerMap := List (String × PeerInfo)

/-- A Go map holds at most one entry per key. -/
def UniqueKeys (m : PeerMap) : Prop := (m.map Prod.fst).Nodup

instance (m : PeerMap) : Decidable (UniqueKeys m) := by
  unfold UniqueKeys
  infer_instance

/-- The map read `m[k]`, `none` when the key is absent. -/
def mapGet (m : PeerMap) (k : String) : Option PeerInfo := m.lookup k

/-- The Go statement `delete(m, k)`. -/
def mapDelete (m : PeerMap) (k : String) : PeerMap := m.filter fun e => decide (e.1 ≠ k)

/-- The Go assignment `m[k] = v`: the value of an existing key is replaced in
place, a new key gets a new entry. -/
def mapSet : PeerMap → String → PeerInfo → PeerMap
  | [], k, v => [(k, v)]
  | (k1, v1) :: rest, k, v =>
    if k1 = k then (k, v) :: rest else (k1, v1) :: mapSet rest k v

/-- The decoded request: the fields `Type`, `ID` and `Addr`, each empty when
the record sent does not have it. -/
structure Request where
  /-- The field `Type` of the Go struct. -/
  Typ : String
  ID : String
  Addr : String
deriving DecidableEq, Repr

/-- What the handler writes to the connection. -/
inductive Reply where
  /-- A `map[string]string`, given by its entries. -/
  | status (entries : List (String × String))
  /-- The slice of peers collected for `get_peers`. -/
  | peers (list : List PeerInfo)
deriving DecidableEq, Repr

/-- The body of `handleConnection` on the table `peers`: `incoming` is the
result of decoding the request (`none` when decoding fails), `now` the value of
`time.Now()`.  Returns the table after the call and the reply written, if any. -/
def handleConnection (peers : PeerMap) (incoming : Option Request) (now : Time) :
    PeerMap × Option Reply :=
  match incoming with
  | none => (peers, none)
  | some msg =>
    if msg.Typ = "register" then
      (mapSet peers msg.ID { ID := msg.ID, Addr := msg.Addr, LastSeen := now },
        some (Reply.status [("status", "ok")]))
    else if msg.Typ = "get_peers" then
      (peers, some (Reply.peers ((peers.map Prod.snd).filter fun peer => decide (peer.ID ≠ msg.ID))))
    else if msg.Typ = "heartbeat" then
      match mapGet peers msg.ID with
      | some peer => (mapSet peers msg.ID { peer with LastSeen := now }, none)
      | none => (peers, none)
    else
      (peers, some (Reply.status [("status", "error"), ("error", "unknown request")]))

/-- One sweep of `cleanupInactivePeers` at time `now`: the entries of the table
are visited in turn and the key of every entry last seen more than ten minutes
ago is deleted. -/
def sweep (peers : PeerMap) (now : Time) : PeerMap :=
  peers.foldl
    (fun table entry =>
      if Sub now entry.2.LastSeen > 10 * Minute then mapDelete table entry.1 else table)
    peers

/-- What happens to the table: a connection is handled, or the ticker of the
eviction loop fires. -/
inductive Event where
  | request (incoming : Option Request) (now : Time)
  | tick (now : Time)
deriving DecidableEq, Repr

/-- The table after one event. -/
def step (peers : PeerMap) : Event → PeerMap
  | Event.request incoming now => (handleConnection peers incoming now).1
  | Event.tick now => sweep peers now

/-- The table after a sequence of events. -/
def run (peers : PeerMap) (events : List Event) : PeerMap := events.foldl step peers

/-- The table of `NewBootstrapServer`. -/
def emptyTable : PeerMap := []

/-- The invariant of the server's table: one entry per key, and every record is
stored under its own ID. -/
def TableOk (peers : PeerMap) : Prop :=
  UniqueKeys peers ∧ ∀ e ∈ peers, e.2.ID = e.1

instance (peers : PeerMap) : Decidable (TableOk peers) := by
  unfold TableOk
  infer_instance

/-- The event is a `register` or `heartbeat` request of the peer `id`. -/
def refreshes (id : String) : Event → Bool
  | Event.request (some msg) _ =>
    decide ((msg.Typ = "register" ∨ msg.Typ = "heartbeat") ∧ msg.ID = id)
  | _ => false

end Bootstrap

namespace P2P

/-! ## Properties of `chunkData` -/

/-- Chunk `i` of the partition of `data` into blocks of 4096 bytes. -/
theorem partitionSpec_eq (data : List Byte) :
    partitionSpec data 4096 =
      (List.range ((data.length + 4095) / 4096)).map
        (fun i => slice data (4096 * i) (min (4096 * (i + 1)) data.length)) := by
  simp [partitionSpec]

theorem chunkLoop_partition (env : Env) (data : List Byte) :
    ∀ (fuel j : Nat), (data.length + 4095) / 4096 ≤ fuel + j →
      j ≤ (data.length + 4095) / 4096 →
      chunkLoop env data 4096 fuel (4096 * j)
          ((List.range j).map (fun i => slice data (4096 * i) (min (4096 * (i + 1)) data.length)))
          ((List.range j).map
            (fun i => hashStr env (slice data (4096 * i) (min (4096 * (i + 1)) data.length))))
        = some (partitionSpec data 4096, (partitionSpec data 4096).map (hashStr env)) := by
  intro fuel
  induction fuel with
  | zero =>
    intro j h1 h2
    have hj : j = (data.length + 4095) / 4096 := by omega
    have hlt : ¬ 4096 * j < data.length := by omega
    rw [chunkLoop, if_neg hlt, partitionSpec_eq, ← hj, List.map_map]
    rfl
  | succ fuel ih =>
    intro j h1 h2
    by_cases hlt : 4096 * j < data.length
    · have hj : j + 1 ≤ (data.length + 4095) / 4096 := by omega
      have hend : (if 4096 * j + 4096 > data.length then data.length else 4096 * j + 4096)
          = min (4096 * (j + 1)) data.length := by
        split <;> omega
      have := ih (j + 1) (by omega) hj
      rw [List.range_succ, List.map_append, List.map_append] at this
      rw [chunkLoop, if_pos hlt]
      simp only [hend]
      exact this
    · have hj : j = (data.length + 4095) / 4096 := by omega
      rw [chunkLoop, if_neg hlt, partitionSpec_eq, ← hj, List.map_map]
      rfl

/-- `chunkData` with the fixed chunk size returns the partition and its hashes. -/
theorem chunkData_eq (env : Env) (data : List Byte) :
    chunkData env data 4096
      = some (partitionSpec data 4096, (partitionSpec data 4096).map (hashStr env)) := by
  have := chunkLoop_partition env data data.length 0 (by omega) (Nat.zero_le _)
  simpa [chunkData] using this

/-! ## Properties of paths -/

theorem hexDigit_mem (n : Nat) : hexDigit n ∈ hexDigits := by
  unfold hexDigit
  by_cases h : n < hexDigits.length
  · rw [List.getD_eq_getElem _ _ h]
    exact List.getElem_mem h
  · rw [List.getD_eq_default _ _ (by omega)]
    decide

theorem hexDigit_ne_slash (n : Nat) : hexDigit n ≠ '/' := by
  intro h
  have := hexDigit_mem n
  rw [h] at this
  revert this
  decide

theorem hexDigit_ne_dot (n : Nat) : hexDigit n ≠ '.' := by
  intro h
  have := hexDigit_mem n
  rw [h] at this
  revert this
  decide

theorem hexChars_no_slash : ∀ (bs : List Byte), ∀ c ∈ hexChars bs, c ≠ '/'
  | [], c, h => by simp [hexChars] at h
  | b :: bs, c, h => by
    simp only [hexChars, hexByte, List.cons_append, List.nil_append, List.mem_cons] at h
    rcases h with h | h | h
    · rw [h]; exact hexDigit_ne_slash _
    · rw [h]; exact hexDigit_ne_slash _
    · exact hexChars_no_slash bs c h

theorem hexChars_no_dot : ∀ (bs : List Byte), ∀ c ∈ hexChars bs, c ≠ '.'
  | [], c, h => by simp [hexChars] at h
  | b :: bs, c, h => by
    simp only [hexChars, hexByte, List.cons_append, List.nil_append, List.mem_cons] at h
    rcases h with h | h | h
    · rw [h]; exact hexDigit_ne_dot _
    · rw [h]; exact hexDigit_ne_dot _
    · exact hexChars_no_dot bs c h

theorem splitSlash_of_no_slash : ∀ (s : List Char), (∀ c ∈ s, c ≠ '/') → splitSlash s = [s]
  | [], _ => rfl
  | c :: cs, h => by
    have hc : c ≠ '/' := h c (List.mem_cons_self _ _)
    have ih := splitSlash_of_no_slash cs (fun x hx => h x (List.mem_cons_of_mem _ hx))
    simp [splitSlash, hc, ih]

/-- Appending characters other than the separator extends the last element. -/
theorem splitSlash_append : ∀ (xs : List Char), ∃ init last, splitSlash xs = init ++ [last] ∧
    ∀ s : List Char, (∀ c ∈ s, c ≠ '/') → splitSlash (xs ++ s) = init ++ [last ++ s]
  | [] => ⟨[], [], rfl, fun s hs => by simpa using splitSlash_of_no_slash s hs⟩
  | c :: cs => by
    obtain ⟨init, last, h1, h2⟩ := splitSlash_append cs
    by_cases hc : c = '/'
    · refine ⟨[] :: init, last, by simp [splitSlash, hc, h1], fun s hs => ?_⟩
      simp [splitSlash, hc, h2 s hs]
    · cases init with
      | nil =>
        refine ⟨[], c :: last, by simp [splitSlash, hc, h1], fun s hs => ?_⟩
        simp [splitSlash, hc, h2 s hs]
      | cons e es =>
        refine ⟨(c :: e) :: es, last, by simp [splitSlash, hc, h1], fun s hs => ?_⟩
        simp [splitSlash, hc, h2 s hs]

theorem mem_joinSlash {e : List Char} {c : Char} (hc : c ∈ e) :
    ∀ {L : List (List Char)}, e ∈ L → c ∈ joinSlash L
  | [], h => by simp at h
  | [x], h => by
    simp only [List.mem_singleton] at h
    simpa [joinSlash, ← h] using hc
  | x :: y :: ys, h => by
    rw [joinSlash]
    simp only [List.mem_append, List.mem_cons]
    rcases List.mem_cons.1 h with h | h
    · exact Or.inl (h ▸ hc)
    · exact Or.inr (Or.inr (mem_joinSlash hc h))

/-- The path of a chunk file, written out. -/
theorem chunkPath_eq (bs : List Byte) :
    filepathJoin "chunks" (hexString bs)
      = if bs = [] then "chunks" else ⟨"chunks/".data ++ hexChars bs⟩ := by
  have hj : filepathJoin "chunks" (hexString bs)
      = ⟨cleanChars ("chunks".data ++ '/' :: hexChars bs)⟩ := by
    simp [filepathJoin, hexString]
  have hsplit : splitSlash ("chunks".data ++ '/' :: hexChars bs) = ["chunks".data, hexChars bs] := by
    have := splitSlash_of_no_slash (hexChars bs) (hexChars_no_slash bs)
    show splitSlash ('c' :: 'h' :: 'u' :: 'n' :: 'k' :: 's' :: '/' :: hexChars bs) = _
    simp [splitSlash, this]
  rw [hj]
  cases bs with
  | nil => decide
  | cons b rest =>
    have hne : hexChars (b :: rest) ≠ [] := by simp [hexChars, hexByte]
    have hd1 : hexChars (b :: rest) ≠ ['.'] := fun h =>
      hexChars_no_dot (b :: rest) '.' (by rw [h]; simp) rfl
    have hd2 : hexChars (b :: rest) ≠ ['.', '.'] := fun h =>
      hexChars_no_dot (b :: rest) '.' (by rw [h]; simp) rfl
    have helems : cleanElems false ("chunks".data ++ '/' :: hexChars (b :: rest))
        = [hexChars (b :: rest), "chunks".data] := by
      rw [cleanElems, hsplit]
      simp only [List.foldl_cons, List.foldl_nil]
      have h1 : cleanStep false [] "chunks".data = ["chunks".data] := by decide
      rw [h1]
      simp [cleanStep, hne, hd1, hd2]
    have hp : "chunks".data ++ '/' :: hexChars (b :: rest) ≠ [] := by
      show 'c' :: _ ≠ []
      simp
    have hroot : ("chunks".data ++ '/' :: hexChars (b :: rest)).head? ≠ some '/' := by
      show some 'c' ≠ some '/'
      decide
    simp only [cleanChars, if_neg hp, hroot, decide_False, helems]
    simp [joinSlash]

/-! ## Properties of path resolution -/

theorem splitSlash_ne_nil : ∀ (p : List Char), splitSlash p ≠ []
  | [] => by simp [splitSlash]
  | c :: cs => by
    rw [splitSlash]
    split
    · simp
    · split <;> simp

theorem splitSlash_cons_slash (ys : List Char) : splitSlash ('/' :: ys) = [] :: splitSlash ys := by
  rw [splitSlash, if_pos rfl]

/-- A separator splits the elements on its left from those on its right. -/
theorem splitSlash_append_slash : ∀ (xs ys : List Char),
    splitSlash (xs ++ '/' :: ys) = splitSlash xs ++ splitSlash ys
  | [], ys => by
    rw [List.nil_append, splitSlash_cons_slash]
    rfl
  | c :: cs, ys => by
    have ih := splitSlash_append_slash cs ys
    by_cases hc : c = '/'
    · subst hc
      rw [List.cons_append, splitSlash_cons_slash, splitSlash_cons_slash, ih, List.cons_append]
    · rw [List.cons_append, splitSlash, if_neg hc, ih, splitSlash, if_neg hc]
      cases hs : splitSlash cs with
      | nil => exact absurd hs (splitSlash_ne_nil cs)
      | cons e es => simp

theorem splitSlash_no_slash : ∀ (p : List Char), ∀ e ∈ splitSlash p, ∀ c ∈ e, c ≠ '/'
  | [], e, he, c, hc => by
    simp only [splitSlash, List.mem_singleton] at he
    subst he
    simp at hc
  | x :: xs, e, he, c, hc => by
    have ih := splitSlash_no_slash xs
    rw [splitSlash] at he
    split at he
    · rcases List.mem_cons.1 he with h | h
      · subst h; simp at hc
      · exact ih e h c hc
    · rename_i hx
      split at he
      · simp only [List.mem_singleton] at he
        subst he
        simp only [List.mem_singleton] at hc
        rw [hc]; exact hx
      · rename_i e1 es hs
        rcases List.mem_cons.1 he with h | h
        · subst h
          rcases List.mem_cons.1 hc with h1 | h1
          · rw [h1]; exact hx
          · exact ih e1 (by rw [hs]; exact List.mem_cons_self _ _) c h1
        · exact ih e (by rw [hs]; exact List.mem_cons_of_mem _ h) c hc

theorem joinSlash_append_singleton (E : List Char) : ∀ (A : List (List Char)), A ≠ [] →
    joinSlash (A ++ [E]) = joinSlash A ++ '/' :: E
  | [], h => absurd rfl h
  | [a], _ => by simp [joinSlash]
  | a :: b :: rest, _ => by
    have ih := joinSlash_append_singleton E (b :: rest) (by simp)
    have h1 : joinSlash (a :: b :: rest ++ [E]) = a ++ '/' :: joinSlash (b :: rest ++ [E]) :=
      rfl
    have h2 : joinSlash (a :: b :: rest) = a ++ '/' :: joinSlash (b :: rest) := rfl
    rw [h1, h2, ih]
    simp

/-- An element that is a name is kept by the walk. -/
theorem cleanStep_name (rooted : Bool) (out : List (List Char)) (e : List Char)
    (h0 : e ≠ []) (h1 : e ≠ ['.']) (h2 : e ≠ ['.', '.']) :
    cleanStep rooted out e = e :: out := by
  simp [cleanStep, h0, h1, h2]

/-- The elements of the cleaned metadata path end with a name that ends in `.meta`. -/
theorem metaPath_split (filename : String) :
    ∃ (X : List (List Char)) (last : List Char),
      splitSlash (filepathJoin "chunks" (filename ++ ".meta")).data
        = X ++ [last ++ ".meta".data] := by
  obtain ⟨init, last, h1, h2⟩ := splitSlash_append ("chunks".data ++ '/' :: filename.data)
  have hs := h2 ".meta".data (by decide)
  have hlastmem : last ∈ splitSlash ("chunks".data ++ '/' :: filename.data) := by
    rw [h1]; simp
  have hlast_ns : ∀ c ∈ last, c ≠ '/' := splitSlash_no_slash _ last hlastmem
  have hE_ns : ∀ c ∈ last ++ ".meta".data, c ≠ '/' := by
    intro c hc
    rcases List.mem_append.1 hc with h | h
    · exact hlast_ns c h
    · have hm : ∀ x ∈ ".meta".data, x ≠ '/' := by decide
      exact hm c h
  have hp : "chunks".data ++ '/' :: (filename ++ ".meta").data
      = ("chunks".data ++ '/' :: filename.data) ++ ".meta".data := by
    simp [String.data_append]
  have hlen : (last ++ ".meta".data).length ≥ 5 := by
    simp only [List.length_append]; show last.length + 5 ≥ 5; omega
  have h0 : last ++ ".meta".data ≠ [] := by intro h; rw [h] at hlen; simp at hlen
  have hd1 : last ++ ".meta".data ≠ ['.'] := by intro h; rw [h] at hlen; simp at hlen
  have hd2 : last ++ ".meta".data ≠ ['.', '.'] := by intro h; rw [h] at hlen; simp at hlen
  have helems : cleanElems false ("chunks".data ++ '/' :: (filename ++ ".meta").data)
      = (last ++ ".meta".data) :: List.foldl (cleanStep false) [] init := by
    rw [cleanElems, hp, hs, List.foldl_append, List.foldl_cons, List.foldl_nil,
      cleanStep_name false _ _ h0 hd1 hd2]
  have hne : "chunks".data ++ '/' :: (filename ++ ".meta").data ≠ [] := by
    show 'c' :: _ ≠ []
    simp
  have hroot : ("chunks".data ++ '/' :: (filename ++ ".meta").data).head? ≠ some '/' := by
    show some 'c' ≠ some '/'
    decide
  have hj : (filepathJoin "chunks" (filename ++ ".meta")).data
      = joinSlash ((List.foldl (cleanStep false) [] init).reverse ++ [last ++ ".meta".data]) := by
    have hjoin : filepathJoin "chunks" (filename ++ ".meta")
        = ⟨cleanChars ("chunks".data ++ '/' :: (filename ++ ".meta").data)⟩ := by
      simp [filepathJoin]
    rw [hjoin]
    simp only [cleanChars, if_neg hne, hroot, decide_False, helems, List.reverse_cons]
    simp only [Bool.false_eq_true, if_false]
    rw [if_neg]
    intro hnil
    have hmem : '.' ∈ joinSlash
        ((List.foldl (cleanStep false) [] init).reverse ++ [last ++ ".meta".data]) :=
      mem_joinSlash (e := last ++ ".meta".data)
        (by simp only [List.mem_append]; right; decide) (by simp)
    rw [hnil] at hmem
    simp at hmem
  rw [hj]
  cases hA : (List.foldl (cleanStep false) [] init).reverse with
  | nil =>
    refine ⟨[], last, ?_⟩
    simp only [List.nil_append, joinSlash]
    exact splitSlash_of_no_slash _ hE_ns
  | cons a rest =>
    refine ⟨splitSlash (joinSlash (a :: rest)), last, ?_⟩
    rw [joinSlash_append_singleton _ _ (by simp), splitSlash_append_slash,
      splitSlash_of_no_slash _ hE_ns]

/-- The node of a metadata file ends with a name that contains a dot. -/
theorem metaNode_last (env : Env) (filename : String) :
    ∃ (N : Node) (E : String), metaNode env filename = N ++ [E] ∧ '.' ∈ E.data := by
  obtain ⟨X, last, hsplit⟩ := metaPath_split filename
  have hlen : (last ++ ".meta".data).length ≥ 5 := by
    simp only [List.length_append]; show last.length + 5 ≥ 5; omega
  have h0 : last ++ ".meta".data ≠ [] := by intro h; rw [h] at hlen; simp at hlen
  have hd1 : last ++ ".meta".data ≠ ['.'] := by intro h; rw [h] at hlen; simp at hlen
  have hd2 : last ++ ".meta".data ≠ ['.', '.'] := by intro h; rw [h] at hlen; simp at hlen
  refine ⟨((List.foldl (cleanStep true)
      (if (filepathJoin "chunks" (filename ++ ".meta")).data.head? = some '/' then []
        else cleanElems true env.cwd.data) X).reverse).map String.mk,
    ⟨last ++ ".meta".data⟩, ?_, ?_⟩
  · simp only [metaNode, resolve, hsplit, List.foldl_append, List.foldl_cons, List.foldl_nil]
    rw [cleanStep_name true _ _ h0 hd1 hd2, List.reverse_cons, List.map_append]
    rfl
  · show '.' ∈ last ++ ".meta".data
    simp only [List.mem_append]; right; decide

theorem cleanStep_chunks (rooted : Bool) (out : List (List Char)) :
    cleanStep rooted out "chunks".data = "chunks".data :: out :=
  cleanStep_name rooted out "chunks".data (by decide) (by decide) (by decide)

/-- The node of the directory `chunks`. -/
theorem resolve_chunks (env : Env) : resolve env "chunks" = cwdNode env ++ ["chunks"] := by
  have hs : splitSlash "chunks".data = ["chunks".data] :=
    splitSlash_of_no_slash _ (by decide)
  have hh : "chunks".data.head? ≠ some '/' := by decide
  have hfold : List.foldl (cleanStep true) (cleanElems true env.cwd.data) ["chunks".data]
      = "chunks".data :: cleanElems true env.cwd.data := by
    rw [List.foldl_cons, List.foldl_nil, cleanStep_chunks]
  rw [resolve]
  simp only []
  rw [if_neg hh, hs, hfold, List.reverse_cons, List.map_append, cwdNode]
  rfl

/-- The node of a chunk file: the file named by the hash string in the directory
`chunks` of the working directory. -/
theorem chunkNode_eq (env : Env) (c : List Byte) :
    chunkNode env c = cwdNode env ++ ["chunks", hashStr env c] := by
  have hne := env.sha256_ne c
  have hpath : filepathJoin "chunks" (hashStr env c)
      = ⟨"chunks/".data ++ hexChars (env.sha256 c)⟩ := by
    rw [hashStr, chunkPath_eq, if_neg hne]
  have hsplit : splitSlash ("chunks/".data ++ hexChars (env.sha256 c))
      = ["chunks".data, hexChars (env.sha256 c)] := by
    have : "chunks/".data ++ hexChars (env.sha256 c)
        = "chunks".data ++ '/' :: hexChars (env.sha256 c) := rfl
    rw [this, splitSlash_append_slash, splitSlash_of_no_slash _ (by decide),
      splitSlash_of_no_slash _ (hexChars_no_slash _)]
    rfl
  have hh : ("chunks/".data ++ hexChars (env.sha256 c)).head? ≠ some '/' := by
    show some 'c' ≠ some '/'
    decide
  have hx0 : hexChars (env.sha256 c) ≠ [] := by
    cases hd : env.sha256 c with
    | nil => exact absurd hd hne
    | cons b rest => simp [hexChars, hexByte]
  have hx1 : hexChars (env.sha256 c) ≠ ['.'] := fun h =>
    hexChars_no_dot _ '.' (by rw [h]; simp) rfl
  have hx2 : hexChars (env.sha256 c) ≠ ['.', '.'] := fun h =>
    hexChars_no_dot _ '.' (by rw [h]; simp) rfl
  have hfold : List.foldl (cleanStep true) (cleanElems true env.cwd.data)
      ["chunks".data, hexChars (env.sha256 c)]
        = hexChars (env.sha256 c) :: "chunks".data :: cleanElems true env.cwd.data := by
    rw [List.foldl_cons, List.foldl_cons, List.foldl_nil, cleanStep_chunks,
      cleanStep_name true _ _ hx0 hx1 hx2]
  rw [chunkNode, resolve, hpath]
  simp only []
  rw [if_neg hh, hsplit, hfold, List.reverse_cons, List.reverse_cons, List.map_append,
    List.map_append, cwdNode, List.append_assoc]
  rfl

theorem dot_not_mem_hashStr (env : Env) (c : List Byte) : '.' ∉ (hashStr env c).data :=
  fun h => hexChars_no_dot _ '.' h rfl

/-- A metadata file is never a chunk file. -/
theorem chunkNode_ne_metaNode (env : Env) (c : List Byte) (filename : String) :
    chunkNode env c ≠ metaNode env filename := by
  obtain ⟨N, E, hN, hdot⟩ := metaNode_last env filename
  rw [chunkNode_eq, hN]
  intro h
  have h1 : cwdNode env ++ ["chunks", hashStr env c]
      = (cwdNode env ++ ["chunks"]) ++ [hashStr env c] := by simp
  rw [h1] at h
  have := (List.append_inj' h rfl).2
  simp only [List.cons.injEq, and_true] at this
  exact dot_not_mem_hashStr env c (this ▸ hdot)

theorem chunkNode_dropLast (env : Env) (c : List Byte) :
    (chunkNode env c).dropLast = resolve env "chunks" := by
  rw [chunkNode_eq, resolve_chunks]
  have : cwdNode env ++ ["chunks", hashStr env c]
      = (cwdNode env ++ ["chunks"]) ++ [hashStr env c] := by simp
  rw [this, List.dropLast_concat]

theorem slice_length (data : List Byte) (i j : Nat) :
    (slice data i j).length = min (j - i) (data.length - i) := by
  simp [slice, List.length_take, List.length_drop]

theorem partition_join_prefix (data : List Byte) :
    ∀ j : Nat, ((List.range j).map
        (fun i => slice data (4096 * i) (min (4096 * (i + 1)) data.length))).flatten
      = data.take (4096 * j)
  | 0 => by simp
  | j + 1 => by
    rw [List.range_succ, List.map_append, List.flatten_append, partition_join_prefix data j]
    simp only [List.map_cons, List.map_nil, List.flatten_cons, List.flatten_nil, List.append_nil, slice]
    by_cases h : 4096 * (j + 1) ≤ data.length
    · rw [Nat.min_eq_left h, show 4096 * (j + 1) - 4096 * j = 4096 by omega,
        show 4096 * (j + 1) = 4096 * j + 4096 by omega, List.take_add]
    · rw [Nat.min_eq_right (by omega)]
      have h1 : List.take (4096 * (j + 1)) data = data := List.take_of_length_le (by omega)
      have h2 : List.take (data.length - 4096 * j) (List.drop (4096 * j) data)
          = List.drop (4096 * j) data := List.take_of_length_le (by simp)
      rw [h1, h2]
      exact List.take_append_drop _ _

theorem partitionSpec_join (data : List Byte) : (partitionSpec data 4096).flatten = data := by
  rw [partitionSpec_eq, partition_join_prefix]
  exact List.take_of_length_le (by omega)

theorem partitionSpec_length (data : List Byte) :
    (partitionSpec data 4096).length = (data.length + 4095) / 4096 := by
  simp [partitionSpec_eq]

theorem partitionSpec_get (data : List Byte) (i : Nat)
    (h : i < (data.length + 4095) / 4096) :
    (partitionSpec data 4096)[i]?
      = some (slice data (4096 * i) (min (4096 * (i + 1)) data.length)) := by
  rw [partitionSpec_eq]
  simp [List.getElem?_map, List.getElem?_range h]

/-- C2: `chunkData(data, 4096)` is the consecutive fixed-size partition of `data`.
It returns, for every `data`, a list of `ceil(len(data)/4096)` chunks together
with their hash strings; chunk `i` is `data[4096*i : min(4096*(i+1), len(data))]`;
the chunks concatenated in order give `data`; a length `4096*k` gives `k` chunks
of 4096 bytes each; a length `4096*k + r` with `0 < r < 4096` gives `k+1` chunks,
the first `k` of 4096 bytes and the last of `r` bytes; empty data gives no chunk
and no hash. -/
theorem C2_chunkData_partition (env : Env) (data : List Byte) :
    ∃ chunks hashes, chunkData env data 4096 = some (chunks, hashes) ∧
      hashes = chunks.map (hashStr env) ∧
      (data.length ≤ 4096 * chunks.length ∧ 4096 * chunks.length < data.length + 4096) ∧
      (∀ i, i < chunks.length →
        chunks[i]? = some (slice data (4096 * i) (min (4096 * (i + 1)) data.length))) ∧
      chunks.flatten = data ∧
      (∀ k, data.length = 4096 * k →
        chunks.length = k ∧ ∀ c ∈ chunks, c.length = 4096) ∧
      (∀ k r, 0 < r → r < 4096 → data.length = 4096 * k + r →
        chunks.length = k + 1 ∧ (∀ i, i < k → (chunks[i]?).map List.length = some 4096) ∧
          (chunks[k]?).map List.length = some r ∧ chunks.getLast?.map List.length = some r) ∧
      (data = [] → chunks = [] ∧ hashes = []) := by
  have hlen := partitionSpec_length data
  refine ⟨partitionSpec data 4096, (partitionSpec data 4096).map (hashStr env),
    chunkData_eq env data, rfl, ?_, ?_, partitionSpec_join data, ?_, ?_, ?_⟩
  · rw [hlen]; omega
  · intro i hi
    exact partitionSpec_get data i (hlen ▸ hi)
  · intro k hk
    refine ⟨by rw [hlen]; omega, ?_⟩
    intro c hc
    obtain ⟨i, hi, rfl⟩ := List.getElem_of_mem hc
    have hi2 : i < (data.length + 4095) / 4096 := hlen ▸ hi
    have := partitionSpec_get data i hi2
    rw [List.getElem?_eq_getElem hi, Option.some.injEq] at this
    rw [this, slice_length]
    omega
  · intro k r hr0 hr hk
    have hl : (partitionSpec data 4096).length = k + 1 := by rw [hlen]; omega
    have hlast : (partitionSpec data 4096)[k]?.map List.length = some r := by
      rw [partitionSpec_get data k (by omega)]
      simp only [Option.map_some', slice_length, Option.some.injEq]
      omega
    refine ⟨hl, ?_, hlast, ?_⟩
    · intro i hi
      rw [partitionSpec_get data i (by omega)]
      simp only [Option.map_some', slice_length, Option.some.injEq]
      omega
    · rw [List.getLast?_eq_getElem?, hl]
      exact hlast
  · intro hd
    subst hd
    exact ⟨rfl, rfl⟩

/-- C2 at a file of 4097 bytes: two chunks, the last of one byte. -/
theorem C2_chunkData_partition_witness :
    ∃ chunks hashes, chunkData demoEnv (List.replicate 4097 7) 4096 = some (chunks, hashes) ∧
      chunks.length = 2 ∧ chunks.getLast?.map List.length = some 1 := by
  obtain ⟨chunks, hashes, h1, _, _, _, _, _, h7, _⟩ :=
    C2_chunkData_partition demoEnv (List.replicate 4097 7)
  have h := h7 1 1 (by decide) (by decide) (List.length_replicate _ _)
  exact ⟨chunks, hashes, h1, h.1, h.2.2.2⟩
/-! ## Properties of the disk -/

theorem lookup_cons_eq (n n1 : Node) (e : Entry) (fs : FS) :
    List.lookup n ((n1, e) :: fs) = if n = n1 then some e else List.lookup n fs := by
  by_cases h : n = n1
  · simp [List.lookup, h]
  · have : (n == n1) = false := by simpa using h
    simp [List.lookup, h, this]

theorem mem_of_lookup (n : Node) (e : Entry) : ∀ (fs : FS), fs.lookup n = some e → (n, e) ∈ fs
  | [], h => by simp at h
  | (n1, e1) :: fs, h => by
    rw [lookup_cons_eq] at h
    split at h
    · rename_i hn
      cases h
      rw [hn]
      exact List.mem_cons_self _ _
    · exact List.mem_cons_of_mem _ (mem_of_lookup n e fs h)

/-- What `stat` finds is the most recent entry, or a directory implied by the
working directory or by an entry below the node. -/
theorem stat_some_cases (env : Env) (fs : FS) (n : Node) (e : Entry)
    (h : stat env fs n = some e) :
    fs.lookup n = some e ∨
      (fs.lookup n = none ∧ e = Entry.dir ∧
        (n <+: cwdNode env ∨ ∃ entry ∈ fs, n <+: entry.1)) := by
  unfold stat at h
  cases hl : fs.lookup n with
  | some e1 =>
    rw [hl] at h
    exact Or.inl h
  | none =>
    rw [hl] at h
    simp only [] at h
    split at h
    · rename_i hc
      cases h
      refine Or.inr ⟨rfl, rfl, ?_⟩
      simp only [Bool.or_eq_true, List.isPrefixOf_iff_prefix, List.any_eq_true] at hc
      exact hc
    · cases h

theorem stat_of_lookup (env : Env) (fs : FS) (n : Node) (e : Entry)
    (h : fs.lookup n = some e) : stat env fs n = some e := by
  unfold stat
  rw [h]

theorem stat_dir_of_above (env : Env) (fs : FS) (n : Node) (h : fs.lookup n = none)
    (ha : n <+: cwdNode env ∨ ∃ entry ∈ fs, n <+: entry.1) :
    stat env fs n = some Entry.dir := by
  unfold stat
  rw [h]
  simp only []
  rw [if_pos]
  simp only [Bool.or_eq_true, List.isPrefixOf_iff_prefix, List.any_eq_true]
  exact ha

theorem stat_cons_self (env : Env) (fs : FS) (n : Node) (e : Entry) :
    stat env ((n, e) :: fs) n = some e :=
  stat_of_lookup env _ n e (by rw [lookup_cons_eq, if_pos rfl])

/-- A new entry at another node changes nothing that exists. -/
theorem stat_cons_ne (env : Env) (fs : FS) (n n1 : Node) (e e1 : Entry) (hne : n ≠ n1)
    (h : stat env fs n = some e) : stat env ((n1, e1) :: fs) n = some e := by
  rcases stat_some_cases env fs n e h with hl | ⟨hl, rfl, ha⟩
  · exact stat_of_lookup env _ n e (by rw [lookup_cons_eq, if_neg hne]; exact hl)
  · apply stat_dir_of_above env _ n (by rw [lookup_cons_eq, if_neg hne]; exact hl)
    rcases ha with ha | ⟨entry, hmem, hp⟩
    · exact Or.inl ha
    · exact Or.inr ⟨entry, List.mem_cons_of_mem _ hmem, hp⟩

/-- A new entry only adds to what exists. -/
theorem stat_cons_some (env : Env) (fs : FS) (n n1 : Node) (e e1 : Entry)
    (h : stat env fs n = some e) : ∃ e2, stat env ((n1, e1) :: fs) n = some e2 := by
  by_cases hne : n = n1
  · exact ⟨e1, by rw [hne]; exact stat_cons_self env fs n1 e1⟩
  · exact ⟨e, stat_cons_ne env fs n n1 e e1 hne h⟩

theorem stat_cons_none (env : Env) (fs : FS) (n n1 : Node) (e1 : Entry)
    (h : stat env ((n1, e1) :: fs) n = none) : stat env fs n = none := by
  cases hs : stat env fs n with
  | none => rfl
  | some e =>
    obtain ⟨e2, h2⟩ := stat_cons_some env fs n n1 e e1 hs
    rw [h] at h2
    cases h2

/-- What a successful `os.WriteFile` has done. -/
theorem osWriteFile_some (env : Env) (fs fs1 : FS) (n : Node) (data : List Byte)
    (h : osWriteFile env fs n data = some fs1) :
    fs1 = (n, Entry.file data) :: fs ∧ stat env fs n.dropLast = some Entry.dir ∧
      stat env fs n ≠ some Entry.dir := by
  unfold osWriteFile at h
  split at h
  · cases h
  · rename_i hnd
    split at h
    · rename_i hc
      cases h
      exact ⟨rfl, hc.1, fun hd => hnd hd⟩
    · cases h

/-- What a successful `os.MkdirAll` has done. -/
theorem osMkdirAll_some (env : Env) (fs fs0 : FS) (n : Node)
    (h : osMkdirAll env fs n = some fs0) :
    (fs0 = fs ∧ stat env fs n = some Entry.dir) ∨
      (fs0 = (n, Entry.dir) :: fs ∧ stat env fs n = none) := by
  unfold osMkdirAll at h
  split at h
  · rename_i hs
    cases h
    exact Or.inl ⟨rfl, hs⟩
  · cases h
  · rename_i hs
    split at h
    · cases h
      exact Or.inr ⟨rfl, hs⟩
    · cases h

theorem prefix_dropLast {a b : Node} (h : a <+: b) (hne : a ≠ b) : a <+: b.dropLast := by
  obtain ⟨t, rfl⟩ := h
  have ht : t ≠ [] := by
    intro ht
    apply hne
    rw [ht, List.append_nil]
  rw [List.dropLast_append_of_ne_nil _ ht]
  exact List.prefix_append _ _

theorem storeLoop_eq_storeAll (env : Env) :
    ∀ (rest : List (List Byte)) (pre : List String) (fs : FS),
      storeLoop env (pre ++ rest.map (hashStr env)) rest pre.length fs
        = some (storeAll env rest fs)
  | [], pre, fs => by simp [storeLoop, storeAll]
  | chunk :: rest, pre, fs => by
    have hget : (pre ++ (chunk :: rest).map (hashStr env))[pre.length]?
        = some (hashStr env chunk) := by
      rw [List.getElem?_append_right (Nat.le_refl _)]
      simp
    have hpre : pre ++ (chunk :: rest).map (hashStr env)
        = (pre ++ [hashStr env chunk]) ++ rest.map (hashStr env) := by simp
    have ih := storeLoop_eq_storeAll env rest (pre ++ [hashStr env chunk])
    simp only [List.length_append, List.length_singleton] at ih
    rw [storeLoop, hget]
    simp only [storeAll, chunkNode]
    rw [hpre]
    cases hl : stat env fs (resolve env (filepathJoin "chunks" (hashStr env chunk))) with
    | none =>
      simp only []
      cases hw : osWriteFile env fs (resolve env (filepathJoin "chunks" (hashStr env chunk)))
          chunk with
      | none => rfl
      | some fs1 => exact ih _
    | some x => exact ih _

/-- The loop never changes or removes what exists. -/
theorem storeAll_mono (env : Env) :
    ∀ (chunks : List (List Byte)) (fs : FS) (n : Node) (e : Entry),
      stat env fs n = some e → stat env (storeAll env chunks fs).1 n = some e
  | [], fs, n, e, h => by simpa [storeAll] using h
  | chunk :: rest, fs, n, e, h => by
    simp only [storeAll]
    cases hl : stat env fs (chunkNode env chunk) with
    | none =>
      simp only []
      cases hw : osWriteFile env fs (chunkNode env chunk) chunk with
      | none => exact h
      | some fs1 =>
        simp only []
        apply storeAll_mono env rest
        rw [(osWriteFile_some env fs fs1 _ _ hw).1]
        apply stat_cons_ne env fs n _ e _ _ h
        intro hn
        rw [hn, hl] at h
        cases h
    | some y => exact storeAll_mono env rest fs n e h

theorem osReadFile_of_stat (env : Env) (fs : FS) (n : Node) (x : List Byte)
    (h : stat env fs n = some (Entry.file x)) : osReadFile env fs n = some x := by
  simp [osReadFile, h]

theorem stat_of_osReadFile (env : Env) (fs : FS) (n : Node) (x : List Byte)
    (h : osReadFile env fs n = some x) : stat env fs n = some (Entry.file x) := by
  unfold osReadFile at h
  split at h
  · rename_i content hs
    cases h
    exact hs
  · cases h

/-- What a `StoreFile` call that returns without error has done. -/
theorem StoreFile_ok (env : Env) (filename : String) (data : List Byte) (fs fs1 : FS)
    (h : StoreFile env filename data fs = some (fs1, none)) :
    ∃ (fs0 : FS) (metaData : List Byte),
      osMkdirAll env fs (resolve env "chunks") = some fs0 ∧
      (storeAll env (partitionSpec data 4096) fs0).2 = none ∧
      env.marshal { Filename := filename,
                    ChunkHashes := (partitionSpec data 4096).map (hashStr env) } = some metaData ∧
      osWriteFile env (storeAll env (partitionSpec data 4096) fs0).1 (metaNode env filename)
        metaData = some fs1 := by
  unfold StoreFile at h
  rw [show chunkSize = 4096 from rfl, chunkData_eq] at h
  simp only [] at h
  cases hd : osMkdirAll env fs (resolve env "chunks") with
  | none => rw [hd] at h; simp at h
  | some fs0 =>
    rw [hd] at h
    simp only [] at h
    have hl := storeLoop_eq_storeAll env (partitionSpec data 4096) [] fs0
    simp only [List.nil_append, List.length_nil] at hl
    rw [hl] at h
    rcases hs : storeAll env (partitionSpec data 4096) fs0 with ⟨fs2, e⟩
    rw [hs] at h
    cases e with
    | some e => simp at h
    | none =>
      simp only [] at h
      rcases hm : env.marshal (MetaData.mk filename
          ((partitionSpec data 4096).map (hashStr env))) with _ | metaData
      · rw [hm] at h; simp at h
      · rw [hm] at h
        simp only [] at h
        cases hw : osWriteFile env fs2 (resolve env (filepathJoin "chunks" (filename ++ ".meta")))
            metaData with
        | none => rw [hw] at h; simp at h
        | some fs3 =>
          rw [hw] at h
          simp only [Option.some.injEq, Prod.mk.injEq, and_true] at h
          subst h
          exact ⟨fs0, metaData, rfl, by rw [hs], rfl, by rw [hs]; exact hw⟩

/-- A successful write changes what is at the node written and nothing else. -/
theorem stat_write_other (env : Env) (fs fs1 : FS) (m : Node) (b : List Byte)
    (hw : osWriteFile env fs m b = some fs1) (n : Node) (hne : n ≠ m) :
    stat env fs1 n = stat env fs n := by
  obtain ⟨rfl, hparent, _⟩ := osWriteFile_some env fs fs1 m b hw
  cases hs : stat env fs n with
  | some e => exact stat_cons_ne env fs n m e _ hne hs
  | none =>
    cases hs1 : stat env ((m, Entry.file b) :: fs) n with
    | none => rfl
    | some e1 =>
      exfalso
      have hl : fs.lookup n = none := by
        cases hl : fs.lookup n with
        | none => rfl
        | some e => rw [stat_of_lookup env fs n e hl] at hs; cases hs
      rcases stat_some_cases env _ n e1 hs1 with h | ⟨_, _, ha⟩
      · rw [lookup_cons_eq, if_neg hne, hl] at h
        cases h
      · have habove : n <+: cwdNode env ∨ ∃ entry ∈ fs, n <+: entry.1 := by
          rcases ha with ha | ⟨entry, hmem, hp⟩
          · exact Or.inl ha
          · rcases List.mem_cons.1 hmem with h | h
            · subst h
              have hp1 : n <+: m.dropLast := prefix_dropLast hp hne
              rcases stat_some_cases env fs _ _ hparent with h2 | ⟨_, _, h2⟩
              · exact Or.inr ⟨_, mem_of_lookup _ _ fs h2, hp1⟩
              · rcases h2 with h2 | ⟨entry, hmem2, hp2⟩
                · exact Or.inl (List.IsPrefix.trans hp1 h2)
                · exact Or.inr ⟨entry, hmem2, List.IsPrefix.trans hp1 hp2⟩
            · exact Or.inr ⟨entry, h, hp⟩
        rw [stat_dir_of_above env fs n hl habove] at hs
        cases hs

theorem sendLoop_stream (d : List Byte) (accepts : Nat → Bool) (hw : ∀ k, accepts k = true)
    (base : List Message) :
    ∀ (fuel j : Nat), (d.length + 4095) / 4096 + 1 ≤ fuel + j →
      j ≤ (d.length + 4095) / 4096 →
      sendLoop fuel { isDir := false, content := d, offset := min (4096 * j) d.length }
          { sent := base ++ (List.range j).map
              (fun i => chunkFrame (slice d (4096 * i) (min (4096 * (i + 1)) d.length))),
            accepts := accepts }
        = some ({ sent := base ++ (partitionSpec d 4096).map chunkFrame, accepts := accepts },
            true) := by
  intro fuel
  induction fuel with
  | zero => intro j h1 h2; omega
  | succ fuel ih =>
    intro j h1 h2
    by_cases hlt : 4096 * j < d.length
    · have hj : j + 1 ≤ (d.length + 4095) / 4096 := by omega
      have hoff : min (4096 * j) d.length = 4096 * j := by omega
      have hnext : 4096 * j + min 4096 (d.length - 4096 * j) = min (4096 * (j + 1)) d.length := by
        omega
      have hread : File.Read { isDir := false, content := d, offset := min (4096 * j) d.length } 4096
          = (slice d (4096 * j) (min (4096 * (j + 1)) d.length), none,
              { isDir := false, content := d, offset := min (4096 * (j + 1)) d.length }) := by
        simp only [File.Read, hoff, hnext]
        rw [if_neg (by decide), if_neg (by decide), if_neg (by omega)]
      have := ih (j + 1) (by omega) hj
      rw [List.range_succ, List.map_append, ← List.append_assoc] at this
      rw [sendLoop, hread]
      simp only [Conn.Encode, hw, if_true]
      exact this
    · have hjn : j = (d.length + 4095) / 4096 := by omega
      have hread : File.Read { isDir := false, content := d, offset := min (4096 * j) d.length } 4096
          = ([], some ReadErr.eof,
              { isDir := false, content := d, offset := min (4096 * j) d.length }) := by
        simp only [File.Read]
        rw [if_neg (by decide), if_neg (by decide), if_pos (by omega)]
      rw [sendLoop, hread, partitionSpec_eq, ← hjn, List.map_map]
      rfl

theorem partitionSpec_block_length (d b : List Byte) (hb : b ∈ partitionSpec d 4096) :
    1 ≤ b.length ∧ b.length ≤ 4096 := by
  obtain ⟨i, hi, rfl⟩ := List.getElem_of_mem hb
  have hi2 : i < (d.length + 4095) / 4096 := partitionSpec_length d ▸ hi
  have := partitionSpec_get d i hi2
  rw [List.getElem?_eq_getElem hi, Option.some.injEq] at this
  rw [this, slice_length]
  omega

theorem sendFile_stream (env : Env) (fs : FS) (conn : Conn) (filename : String)
    (d : List Byte)
    (hopen : stat env fs (resolve env (filepathJoin "shared_folder" filename))
      = some (Entry.file d))
    (hw : ∀ k, conn.accepts k = true) :
    sendFile env fs conn filename
      = some { sent := conn.sent ++ ((partitionSpec d 4096).map chunkFrame ++ [endFrame filename]),
               accepts := conn.accepts } := by
  have h := sendLoop_stream d conn.accepts hw conn.sent (d.length + 1) 0 (by omega)
    (Nat.zero_le _)
  simp only [Nat.mul_zero, Nat.zero_min, List.range_zero, List.map_nil, List.append_nil] at h
  simp only [sendFile, osOpen, hopen, h, Conn.Encode, hw, if_true, List.append_assoc]
  rfl

/-- C4: server streaming.  For a `request_file` request whose file the server
can open, with content `d`, on a connection where every frame write succeeds,
the frames the server emits are exactly: `send_file_chunk` frames carrying the
consecutive blocks of `d` in file order, each of at least 1 and at most 4096
bytes and together concatenating to `d`, then one `end_of_file` frame carrying
the filename, and nothing else.  An empty file gives only the `end_of_file`
frame; a file of 10000 bytes gives blocks of 4096, 4096 and 1808 bytes. -/
theorem C4_server_streaming (env : Env) (fs : FS) (conn : Conn) (request : Message)
    (d : List Byte)
    (hreq : request.Typ = "request_file")
    (hopen : stat env fs (resolve env (filepathJoin "shared_folder" request.Filename))
      = some (Entry.file d))
    (hw : ∀ k, conn.accepts k = true) :
    ∃ (conn1 : Conn) (blocks : List (List Byte)),
      handleConnection env fs conn (some request) = some conn1 ∧
      conn1.sent = conn.sent ++ (blocks.map chunkFrame ++ [endFrame request.Filename]) ∧
      blocks.flatten = d ∧
      (∀ b ∈ blocks, 1 ≤ b.length ∧ b.length ≤ 4096) ∧
      (∀ i, i < blocks.length →
        blocks[i]? = some (slice d (4096 * i) (min (4096 * (i + 1)) d.length))) ∧
      (d = [] → conn1.sent = conn.sent ++ [endFrame request.Filename]) ∧
      (d.length = 10000 → blocks.map List.length = [4096, 4096, 1808]) := by
  refine ⟨Conn.mk (conn.sent ++
      ((partitionSpec d 4096).map chunkFrame ++ [endFrame request.Filename])) conn.accepts,
    partitionSpec d 4096, ?_, rfl, partitionSpec_join d,
    partitionSpec_block_length d, ?_, ?_, ?_⟩
  · simp only [handleConnection, hreq, if_true]
    exact sendFile_stream env fs conn request.Filename d hopen hw
  · intro i hi
    exact partitionSpec_get d i (partitionSpec_length d ▸ hi)
  · intro hd
    subst hd
    rfl
  · intro hd
    rw [partitionSpec_eq, hd]
    have hr : List.range ((10000 + 4095) / 4096) = [0, 1, 2] := by decide
    rw [hr]
    simp [slice_length, hd]

/-- C4 at a three-byte file `shared_folder/x` requested on a fresh connection. -/
theorem C4_server_streaming_witness :
    ∃ conn1, handleConnection demoEnv [(["proj", "shared_folder", "x"], Entry.file [1, 2, 3])]
        freshConn (some { Typ := "request_file", Filename := "x", Content := [] }) = some conn1 ∧
      conn1.sent = [chunkFrame [1, 2, 3], endFrame "x"] := by
  obtain ⟨conn1, blocks, h1, h2, h3, h4, _⟩ :=
    C4_server_streaming demoEnv [(["proj", "shared_folder", "x"], Entry.file [1, 2, 3])]
      freshConn { Typ := "request_file", Filename := "x", Content := [] } [1, 2, 3] rfl
      (by decide) (fun _ => rfl)
  refine ⟨conn1, h1, ?_⟩
  have hc : handleConnection demoEnv [(["proj", "shared_folder", "x"], Entry.file [1, 2, 3])]
      freshConn (some { Typ := "request_file", Filename := "x", Content := [] })
        = some { sent := [chunkFrame [1, 2, 3], endFrame "x"], accepts := freshConn.accepts } := by
    rfl
  rw [hc] at h1
  cases h1
  rfl

/-! ## Properties of the client decode loop -/

/-- The frames before the first `end_of_file` frame. -/
theorem recvLoop_frames : ∀ (frames : List Message) (acc : List Byte),
    recvLoop (frames.map some) acc =
      match (frames.takeWhile (fun m => decide (m.Typ ≠ "end_of_file"))).find?
          (fun m => decide (m.Typ = "error")) with
      | some e => RequestResult.error (RequestErr.peer e.Content)
      | none => RequestResult.ok (acc ++
          (((frames.takeWhile (fun m => decide (m.Typ ≠ "end_of_file"))).filter
            (fun m => decide (m.Typ = "send_file_chunk"))).map (fun m => m.Content)).flatten)
  | [], acc => by simp [recvLoop]
  | m :: rest, acc => by
    simp only [List.map_cons, recvLoop]
    by_cases herr : m.Typ = "error"
    · have hne : m.Typ ≠ "end_of_file" := by rw [herr]; decide
      simp [herr, List.takeWhile_cons, List.find?_cons]
    · by_cases heof : m.Typ = "end_of_file"
      · have hnc : m.Typ ≠ "send_file_chunk" := by rw [heof]; decide
        simp [herr, heof, List.takeWhile_cons]
      · rw [if_neg herr, if_neg heof, recvLoop_frames rest]
        by_cases hc : m.Typ = "send_file_chunk"
        · simp [herr, heof, hc, List.takeWhile_cons, List.find?_cons, List.filter_cons]
        · simp [herr, heof, hc, List.takeWhile_cons, List.find?_cons, List.filter_cons]

/-- C5: client decode loop.  After the request frame is sent, let the frames
read back be any finite sequence of well-formed frames followed by the end of
the stream, and let `P` be those before the first `end_of_file` frame (all of
them when there is none).  If `P` holds an `error` frame, `RequestFile` fails
with the error that carries the content of the first such frame, and returns
no data, whatever chunk frames came before it.  Otherwise it succeeds and
returns the contents of the `send_file_chunk` frames of `P` concatenated in
arrival order, also when no `end_of_file` frame arrives. -/
theorem C5_client_decode_loop (dial : String → Option Remote) (peer : Peer) (filename : String)
    (remote : Remote) (frames : List Message)
    (hdial : dial peer.Address = some remote)
    (hsend : remote.acceptsRequest = true)
    (hreply : remote.reply { Typ := "request_file", Filename := filename, Content := [] }
      = frames.map some) :
    (∀ e, (frames.takeWhile (fun m => decide (m.Typ ≠ "end_of_file"))).find?
          (fun m => decide (m.Typ = "error")) = some e →
        RequestFile dial peer filename = RequestResult.error (RequestErr.peer e.Content)) ∧
    ((frames.takeWhile (fun m => decide (m.Typ ≠ "end_of_file"))).find?
          (fun m => decide (m.Typ = "error")) = none →
        RequestFile dial peer filename = RequestResult.ok
          (((frames.takeWhile (fun m => decide (m.Typ ≠ "end_of_file"))).filter
            (fun m => decide (m.Typ = "send_file_chunk"))).map (fun m => m.Content)).flatten) := by
  have h : RequestFile dial peer filename = recvLoop (frames.map some) [] := by
    simp only [RequestFile, hdial, hsend, if_true, hreply]
  rw [h, recvLoop_frames]
  constructor
  · intro e he
    rw [he]
  · intro hn
    rw [hn]
    simp

/-- C5 at a stream with a chunk, an error frame, and a chunk after an
`end_of_file` frame. -/
theorem C5_client_decode_loop_witness :
    RequestFile
        (fun _ => some { acceptsRequest := true,
                         reply := fun _ => [some (chunkFrame [1, 2]),
                           some { Typ := "error", Filename := "", Content := [7] },
                           some (endFrame "x"), some (chunkFrame [3])] })
        { ID := "B", IP := "127.0.0.1", Port := "9002" } "x"
      = RequestResult.error (RequestErr.peer [7]) :=
  (C5_client_decode_loop _ { ID := "B", IP := "127.0.0.1", Port := "9002" } "x"
    { acceptsRequest := true,
      reply := fun _ => [some (chunkFrame [1, 2]),
        some { Typ := "error", Filename := "", Content := [7] },
        some (endFrame "x"), some (chunkFrame [3])] }
    [chunkFrame [1, 2], { Typ := "error", Filename := "", Content := [7] },
      endFrame "x", chunkFrame [3]]
    rfl rfl rfl).1 { Typ := "error", Filename := "", Content := [7] } (by decide)

/-! ## End-to-end transfer -/

theorem recvLoop_blocks (filename : String) : ∀ (blocks : List (List Byte)) (acc : List Byte),
    recvLoop ((blocks.map chunkFrame ++ [endFrame filename]).map some) acc
      = RequestResult.ok (acc ++ blocks.flatten)
  | [], acc => by
    simp only [List.map_nil, List.nil_append, List.map_cons, recvLoop, endFrame]
    simp
  | b :: rest, acc => by
    have ih := recvLoop_blocks filename rest (acc ++ b)
    have e1 : ¬ ((chunkFrame b).Typ = "error") := by
      show ¬ ("send_file_chunk" = "error"); decide
    have e2 : ¬ ((chunkFrame b).Typ = "end_of_file") := by
      show ¬ ("send_file_chunk" = "end_of_file"); decide
    have e3 : (chunkFrame b).Typ = "send_file_chunk" := rfl
    have e4 : (chunkFrame b).Content = b := rfl
    rw [List.map_cons, List.cons_append, List.map_cons, recvLoop, if_neg e1, if_neg e2,
      if_pos e3, e4, ih]
    simp

/-- The answer of a serving peer that holds the requested file in its shared folder. -/
theorem servingPeer_reply_file (env : Env) (fs : FS) (filename : String)
    (d content : List Byte)
    (hopen : stat env fs (resolve env (filepathJoin "shared_folder" filename))
      = some (Entry.file d)) :
    (servingPeer env fs).reply
        { Typ := "request_file", Filename := filename, Content := content }
      = ((partitionSpec d 4096).map chunkFrame ++ [endFrame filename]).map some := by
  have h := sendFile_stream env fs freshConn filename d hopen (fun _ => rfl)
  simp only [servingPeer, handleConnection, if_true, h]
  rfl

/-- A requested name that is a directory is opened, the read fails, and the
server writes no frame at all. -/
theorem sendFile_directory (env : Env) (fs : FS) (conn : Conn) (filename : String)
    (hdir : stat env fs (resolve env (filepathJoin "shared_folder" filename))
      = some Entry.dir) :
    sendFile env fs conn filename = some conn := by
  simp only [sendFile, osOpen, hdir]
  rfl

/-- C6 (amended): end-to-end transfer from the shared folder.  For every
filename `f` and byte sequence `d`, when the serving peer holds `d` in the file
`shared_folder/f`, a `request_file` for `f` is answered from that file by
`send_file_chunk` frames carrying the consecutive blocks of `d` and one
`end_of_file` frame, and `RequestFile` returns `d` byte for byte; for a file of
10000 bytes the answer is two chunk frames of 4096 bytes, one of 1808 bytes and
one `end_of_file` frame. -/
theorem C6_transfer_from_shared_folder (env : Env) (fs : FS) (f : String) (d : List Byte)
    (dial : String → Option Remote) (peer : Peer)
    (hfile : stat env fs (resolve env (filepathJoin "shared_folder" f)) = some (Entry.file d))
    (hdial : dial peer.Address = some (servingPeer env fs)) :
    RequestFile dial peer f = RequestResult.ok d ∧
    ∃ blocks : List (List Byte),
      (servingPeer env fs).reply { Typ := "request_file", Filename := f, Content := [] }
        = (blocks.map chunkFrame ++ [endFrame f]).map some ∧
      blocks.flatten = d ∧
      (d.length = 10000 → blocks.map List.length = [4096, 4096, 1808]) := by
  have hreply := servingPeer_reply_file env fs f d [] hfile
  constructor
  · have hacc : (servingPeer env fs).acceptsRequest = true := rfl
    simp only [RequestFile, hdial, hacc, if_true, hreply]
    rw [recvLoop_blocks, partitionSpec_join]
    rfl
  · refine ⟨partitionSpec d 4096, hreply, partitionSpec_join d, ?_⟩
    intro hd
    rw [partitionSpec_eq, hd]
    have hr : List.range ((10000 + 4095) / 4096) = [0, 1, 2] := by decide
    rw [hr]
    simp [slice_length, hd]

/-- C6 (amended) at a three-byte file `shared_folder/doc.bin`. -/
theorem C6_transfer_from_shared_folder_witness :
    RequestFile
        (fun _ => some (servingPeer demoEnv
          [(["proj", "shared_folder", "doc.bin"], Entry.file [1, 2, 3])]))
        { ID := "B", IP := "127.0.0.1", Port := "9002" } "doc.bin"
      = RequestResult.ok [1, 2, 3] :=
  (C6_transfer_from_shared_folder demoEnv
    [(["proj", "shared_folder", "doc.bin"], Entry.file [1, 2, 3])] "doc.bin" [1, 2, 3]
    (fun _ => some (servingPeer demoEnv
      [(["proj", "shared_folder", "doc.bin"], Entry.file [1, 2, 3])]))
    { ID := "B", IP := "127.0.0.1", Port := "9002" } (by decide) rfl).1

/-- C6 as stated fails: after peer B has stored `[1, 2, 3]` as `doc.bin` with
`StoreFile`, its answer to a request for `doc.bin` is one `error` frame, and
`RequestFile` fails instead of returning the stored bytes. -/
theorem C6_counterexample :
    StoreFile demoEnv "doc.bin" [1, 2, 3] []
      = some ([(["proj", "chunks", "doc.bin.meta"], Entry.file (demoEncode ["00010203"])),
          (["proj", "chunks", "00010203"], Entry.file [1, 2, 3]),
          (["proj", "chunks"], Entry.dir)], none) ∧
    RetrieveFile demoEnv "doc.bin"
        [(["proj", "chunks", "doc.bin.meta"], Entry.file (demoEncode ["00010203"])),
          (["proj", "chunks", "00010203"], Entry.file [1, 2, 3]),
          (["proj", "chunks"], Entry.dir)]
      = Except.ok [1, 2, 3] ∧
    (servingPeer demoEnv
        [(["proj", "chunks", "doc.bin.meta"], Entry.file (demoEncode ["00010203"])),
          (["proj", "chunks", "00010203"], Entry.file [1, 2, 3]),
          (["proj", "chunks"], Entry.dir)]).reply
        { Typ := "request_file", Filename := "doc.bin", Content := [] }
      = [some (notFoundFrame "doc.bin")] ∧
    RequestFile
        (fun _ => some (servingPeer demoEnv
          [(["proj", "chunks", "doc.bin.meta"], Entry.file (demoEncode ["00010203"])),
            (["proj", "chunks", "00010203"], Entry.file [1, 2, 3]),
            (["proj", "chunks"], Entry.dir)]))
        { ID := "B", IP := "127.0.0.1", Port := "9002" } "doc.bin"
      = RequestResult.error (RequestErr.peer (asciiBytes "File not found")) := by
  refine ⟨by decide, rfl, by decide, by decide⟩

/-- The name of a directory is not a missing file: asked for the empty name,
which names the shared folder itself, the server writes no frame, and
`RequestFile` returns no bytes and no error. -/
theorem request_directory :
    stat demoEnv [(["proj", "shared_folder", "x"], Entry.file [1, 2, 3])]
        (resolve demoEnv (filepathJoin "shared_folder" "")) = some Entry.dir ∧
    (servingPeer demoEnv [(["proj", "shared_folder", "x"], Entry.file [1, 2, 3])]).reply
        { Typ := "request_file", Filename := "", Content := [] } = [] ∧
    RequestFile
        (fun _ => some (servingPeer demoEnv
          [(["proj", "shared_folder", "x"], Entry.file [1, 2, 3])]))
        { ID := "B", IP := "127.0.0.1", Port := "9002" } ""
      = RequestResult.ok [] := by
  refine ⟨by decide, by decide, by decide⟩

/-! ## `StoreFile` never overwrites stored content -/

theorem stat_append_none (env : Env) (fs : FS) (n : Node) :
    ∀ ws : FS, stat env (ws ++ fs) n = none → stat env fs n = none
  | [], h => h
  | (n1, e1) :: ws, h =>
    stat_append_none env fs n ws (stat_cons_none env (ws ++ fs) n n1 e1 h)

/-- The loop only adds files, each at the node of a chunk where nothing was. -/
theorem storeAll_writes (env : Env) :
    ∀ (chunks : List (List Byte)) (fs : FS),
      ∃ ws : FS, (storeAll env chunks fs).1 = ws ++ fs ∧
        ∀ w ∈ ws, stat env fs w.1 = none ∧
          ∃ c ∈ chunks, w = (chunkNode env c, Entry.file c)
  | [], fs => ⟨[], rfl, fun w hw => by simp at hw⟩
  | chunk :: rest, fs => by
    simp only [storeAll]
    cases hl : stat env fs (chunkNode env chunk) with
    | none =>
      simp only []
      cases hw : osWriteFile env fs (chunkNode env chunk) chunk with
      | none => exact ⟨[], rfl, fun w hw => by simp at hw⟩
      | some fs1 =>
        simp only []
        have hfs1 := (osWriteFile_some env fs fs1 _ _ hw).1
        obtain ⟨ws, h1, h2⟩ := storeAll_writes env rest fs1
        refine ⟨ws ++ [(chunkNode env chunk, Entry.file chunk)], ?_, ?_⟩
        · rw [h1, hfs1]; simp
        · intro w hmem
          rcases List.mem_append.1 hmem with hmem | hmem
          · obtain ⟨hnone, c, hc, hwc⟩ := h2 w hmem
            rw [hfs1] at hnone
            exact ⟨stat_cons_none env fs _ _ _ hnone, c, List.mem_cons_of_mem _ hc, hwc⟩
          · simp only [List.mem_singleton] at hmem
            subst hmem
            exact ⟨hl, chunk, List.mem_cons_self _ _, rfl⟩
    | some y =>
      obtain ⟨ws, h1, h2⟩ := storeAll_writes env rest fs
      exact ⟨ws, h1, fun w hw => by
        obtain ⟨hnone, c, hc, hwc⟩ := h2 w hw
        exact ⟨hnone, c, List.mem_cons_of_mem _ hc, hwc⟩⟩

/-- Every call of `StoreFile` returns.  The disk it leaves is the old disk when
the directory cannot be made, and else the disk after the chunk loop, with the
metadata file written on top when the call succeeds. -/
theorem StoreFile_result (env : Env) (filename : String) (data : List Byte) (fs : FS) :
    ∃ (fs1 : FS) (e : Option StoreErr), StoreFile env filename data fs = some (fs1, e) ∧
      (fs1 = fs ∨ ∃ fs0, osMkdirAll env fs (resolve env "chunks") = some fs0 ∧
        (fs1 = (storeAll env (partitionSpec data 4096) fs0).1 ∨
          ∃ b, osWriteFile env (storeAll env (partitionSpec data 4096) fs0).1
            (metaNode env filename) b = some fs1)) := by
  unfold StoreFile
  rw [show chunkSize = 4096 from rfl, chunkData_eq]
  simp only []
  cases hd : osMkdirAll env fs (resolve env "chunks") with
  | none => exact ⟨fs, _, rfl, Or.inl rfl⟩
  | some fs0 =>
    simp only []
    have hl := storeLoop_eq_storeAll env (partitionSpec data 4096) [] fs0
    simp only [List.nil_append, List.length_nil] at hl
    rw [hl]
    rcases hs : storeAll env (partitionSpec data 4096) fs0 with ⟨fs2, e⟩
    cases e with
    | some e => exact ⟨fs2, some e, rfl, Or.inr ⟨fs0, rfl, Or.inl (by rw [hs])⟩⟩
    | none =>
      simp only []
      rcases hm : env.marshal (MetaData.mk filename
          ((partitionSpec data 4096).map (hashStr env))) with _ | metaData
      · exact ⟨fs2, _, rfl, Or.inr ⟨fs0, rfl, Or.inl (by rw [hs])⟩⟩
      · simp only []
        cases hw : osWriteFile env fs2 (resolve env (filepathJoin "chunks" (filename ++ ".meta")))
            metaData with
        | none => exact ⟨fs2, _, rfl, Or.inr ⟨fs0, rfl, Or.inl (by rw [hs])⟩⟩
        | some fs3 => exact ⟨fs3, none, rfl, Or.inr ⟨fs0, rfl, Or.inr ⟨metaData, by rw [hs]; exact hw⟩⟩⟩

theorem readChunks_preserved (env : Env) (fs fs1 : FS) :
    ∀ (hashes : List String) (acc x : List Byte),
      (∀ h ∈ hashes, ∀ y, osReadFile env fs (resolve env (filepathJoin "chunks" h)) = some y →
        osReadFile env fs1 (resolve env (filepathJoin "chunks" h)) = some y) →
      readChunks env fs hashes acc = Except.ok x → readChunks env fs1 hashes acc = Except.ok x
  | [], _, _, _, h => h
  | hash :: rest, acc, x, hkeep, h => by
    simp only [readChunks] at h ⊢
    cases hl : osReadFile env fs (resolve env (filepathJoin "chunks" hash)) with
    | none => rw [hl] at h; cases h
    | some chunk =>
      rw [hl] at h
      rw [hkeep hash (List.mem_cons_self _ _) chunk hl]
      exact readChunks_preserved env fs fs1 rest _ x
        (fun h1 hh => hkeep h1 (List.mem_cons_of_mem _ hh)) h

/-- C13 (amended): `StoreFile` never overwrites stored content.  For every disk,
filename `f` and byte sequence `d`, the call `StoreFile(f, d)` returns, with or
without error, and the disk it leaves is the old disk with new entries on top:
the directory `chunks` when it was not there, chunk files, each at the node of
a chunk where nothing existed, and at most one write of the metadata file of
`f`.  So whatever existed is still what it was, except possibly the metadata
file of `f`, and nothing is deleted.  Hence for every stored filename `g` whose
metadata file is another file than that of `f`, a `RetrieveFile(g)` that
returned bytes before the call returns the same bytes after it. -/
theorem C13_store_never_overwrites (env : Env) (f : String) (d : List Byte) (fs : FS) :
    ∃ (fs1 : FS) (e : Option StoreErr), StoreFile env f d fs = some (fs1, e) ∧
      (∃ dirWrites chunkWrites metaWrites : FS,
        fs1 = metaWrites ++ (chunkWrites ++ (dirWrites ++ fs)) ∧
        (dirWrites = [] ∨
          (dirWrites = [(resolve env "chunks", Entry.dir)] ∧
            stat env fs (resolve env "chunks") = none)) ∧
        (∀ w ∈ chunkWrites, stat env fs w.1 = none ∧
          ∃ c, w = (chunkNode env c, Entry.file c)) ∧
        (metaWrites = [] ∨ ∃ b, metaWrites = [(metaNode env f, Entry.file b)])) ∧
      (∀ n e0, stat env fs n = some e0 → n ≠ metaNode env f → stat env fs1 n = some e0) ∧
      (∀ n e0, stat env fs n = some e0 → ∃ e1, stat env fs1 n = some e1) ∧
      (∀ g x, StoredName env fs g → metaNode env g ≠ metaNode env f →
        RetrieveFile env g fs = Except.ok x → RetrieveFile env g fs1 = Except.ok x) := by
  obtain ⟨fs1, e, hstore, hshape⟩ := StoreFile_result env f d fs
  have hdecomp : ∃ dirWrites chunkWrites metaWrites : FS,
      fs1 = metaWrites ++ (chunkWrites ++ (dirWrites ++ fs)) ∧
      (dirWrites = [] ∨
        (dirWrites = [(resolve env "chunks", Entry.dir)] ∧
          stat env fs (resolve env "chunks") = none)) ∧
      (∀ w ∈ chunkWrites, stat env fs w.1 = none ∧
        ∃ c, w = (chunkNode env c, Entry.file c)) ∧
      (metaWrites = [] ∨ ∃ b, metaWrites = [(metaNode env f, Entry.file b)]) := by
    rcases hshape with h | ⟨fs0, hd, h⟩
    · exact ⟨[], [], [], by rw [h]; rfl, Or.inl rfl, fun w hw => by simp at hw, Or.inl rfl⟩
    · obtain ⟨ws, hws, hnew⟩ := storeAll_writes env (partitionSpec d 4096) fs0
      have hdw : ∃ dw : FS, fs0 = dw ++ fs ∧ (dw = [] ∨
          (dw = [(resolve env "chunks", Entry.dir)] ∧
            stat env fs (resolve env "chunks") = none)) := by
        rcases osMkdirAll_some env fs fs0 _ hd with ⟨h0, _⟩ | ⟨h0, hn⟩
        · exact ⟨[], by rw [h0]; rfl, Or.inl rfl⟩
        · exact ⟨[(resolve env "chunks", Entry.dir)], by rw [h0]; rfl, Or.inr ⟨rfl, hn⟩⟩
      obtain ⟨dw, hfs0, hdwc⟩ := hdw
      have hnew1 : ∀ w ∈ ws, stat env fs w.1 = none ∧
          ∃ c, w = (chunkNode env c, Entry.file c) := fun w hw =>
        ⟨stat_append_none env fs w.1 dw (hfs0 ▸ (hnew w hw).1),
          (hnew w hw).2.choose, (hnew w hw).2.choose_spec.2⟩
      rcases h with h | ⟨b, hw⟩
      · exact ⟨dw, ws, [], by rw [h, hws, hfs0]; rfl, hdwc, hnew1, Or.inl rfl⟩
      · refine ⟨dw, ws, [(metaNode env f, Entry.file b)], ?_, hdwc, hnew1, Or.inr ⟨b, rfl⟩⟩
        rw [(osWriteFile_some env _ fs1 _ _ hw).1, hws, hfs0]
        rfl
  have hkeep : ∀ n e0, stat env fs n = some e0 → n ≠ metaNode env f →
      stat env fs1 n = some e0 := by
    intro n e0 hn hne
    rcases hshape with h | ⟨fs0, hd, h⟩
    · rw [h]; exact hn
    · have h0 : stat env fs0 n = some e0 := by
        rcases osMkdirAll_some env fs fs0 _ hd with ⟨h0, _⟩ | ⟨h0, hnone⟩
        · rw [h0]; exact hn
        · rw [h0]
          apply stat_cons_ne env fs n _ e0 _ _ hn
          intro heq
          rw [heq, hnone] at hn
          cases hn
      have h1 := storeAll_mono env (partitionSpec d 4096) fs0 n e0 h0
      rcases h with h | ⟨b, hw⟩
      · rw [h]; exact h1
      · rw [stat_write_other env _ fs1 _ b hw n hne]
        exact h1
  refine ⟨fs1, e, hstore, hdecomp, hkeep, ?_, ?_⟩
  · intro n e0 hn
    by_cases hne : n = metaNode env f
    · obtain ⟨dw, cw, mw, hfs1, _, _, hmw⟩ := hdecomp
      rcases hmw with h | ⟨b, h⟩
      · have hmid : ∀ (ws : FS), ∃ e1, stat env (ws ++ fs) n = some e1 := by
          intro ws
          induction ws with
          | nil => exact ⟨e0, hn⟩
          | cons w ws ih =>
            obtain ⟨e1, he1⟩ := ih
            exact stat_cons_some env (ws ++ fs) n w.1 e1 w.2 he1
        rw [hfs1, h, List.nil_append, ← List.append_assoc]
        exact hmid (cw ++ dw)
      · rw [hfs1, h, hne]
        exact ⟨Entry.file b, stat_cons_self env _ _ _⟩
    · exact ⟨e0, hkeep n e0 hn hne⟩
  · rintro g x ⟨b, m, chunks, hb, hm, hhashes⟩ hg hret
    have hb1 : osReadFile env fs1 (metaNode env g) = some b :=
      osReadFile_of_stat env fs1 _ b (hkeep _ _ (stat_of_osReadFile env fs _ b hb) hg)
    unfold RetrieveFile at hret ⊢
    rw [metaNode] at hb hb1
    rw [hb] at hret
    rw [hb1]
    simp only [hm] at hret ⊢
    apply readChunks_preserved env fs fs1 m.ChunkHashes [] x _ hret
    intro h hh y hy
    rw [hhashes] at hh
    obtain ⟨c, _, rfl⟩ := List.mem_map.1 hh
    exact osReadFile_of_stat env fs1 _ y
      (hkeep _ _ (stat_of_osReadFile env fs _ y hy) (chunkNode_ne_metaNode env c f))

/-- C13 (amended) at a disk that holds `[1, 2, 3]` stored as `b`, when `[4]` is
stored as `a`. -/
theorem C13_store_never_overwrites_witness :
    RetrieveFile demoEnv "b"
        [(["proj", "chunks", "a.meta"], Entry.file (demoEncode ["0004"])),
          (["proj", "chunks", "0004"], Entry.file [4]),
          (["proj", "chunks", "b.meta"], Entry.file (demoEncode ["00010203"])),
          (["proj", "chunks", "00010203"], Entry.file [1, 2, 3]),
          (["proj", "chunks"], Entry.dir)]
      = Except.ok [1, 2, 3] := by
  obtain ⟨fs1, e, h1, _, _, _, h5⟩ := C13_store_never_overwrites demoEnv "a" [4]
    [(["proj", "chunks", "b.meta"], Entry.file (demoEncode ["00010203"])),
      (["proj", "chunks", "00010203"], Entry.file [1, 2, 3]),
      (["proj", "chunks"], Entry.dir)]
  have hs : StoreFile demoEnv "a" [4]
      [(["proj", "chunks", "b.meta"], Entry.file (demoEncode ["00010203"])),
        (["proj", "chunks", "00010203"], Entry.file [1, 2, 3]),
        (["proj", "chunks"], Entry.dir)]
        = some ([(["proj", "chunks", "a.meta"], Entry.file (demoEncode ["0004"])),
            (["proj", "chunks", "0004"], Entry.file [4]),
            (["proj", "chunks", "b.meta"], Entry.file (demoEncode ["00010203"])),
            (["proj", "chunks", "00010203"], Entry.file [1, 2, 3]),
            (["proj", "chunks"], Entry.dir)], none) := by
    decide
  rw [hs] at h1
  cases h1
  exact h5 "b" [1, 2, 3]
    ⟨demoEncode ["00010203"], { Filename := "", ChunkHashes := ["00010203"] }, [[1, 2, 3]],
      by decide, by decide, by decide⟩
    (by decide) rfl

/-- C13 as stated fails: in the working directory `/proj` the filenames `x` and
`../../proj/chunks/x` have different metadata paths, `chunks/x.meta` and
`../proj/chunks/x.meta`, that name one file.  After `[1]` is stored as `x`,
storing `[2]` under the second name overwrites that file, and `RetrieveFile` of
`x` returns `[2]` where it returned `[1]` before. -/
theorem C13_counterexample :
    filepathJoin "chunks" ("x" ++ ".meta") = "chunks/x.meta" ∧
    filepathJoin "chunks" ("../../proj/chunks/x" ++ ".meta") = "../proj/chunks/x.meta" ∧
    StoreFile demoEnv "x" [1] []
      = some ([(["proj", "chunks", "x.meta"], Entry.file (demoEncode ["0001"])),
          (["proj", "chunks", "0001"], Entry.file [1]),
          (["proj", "chunks"], Entry.dir)], none) ∧
    RetrieveFile demoEnv "x"
        [(["proj", "chunks", "x.meta"], Entry.file (demoEncode ["0001"])),
          (["proj", "chunks", "0001"], Entry.file [1]),
          (["proj", "chunks"], Entry.dir)]
      = Except.ok [1] ∧
    StoreFile demoEnv "../../proj/chunks/x" [2]
        [(["proj", "chunks", "x.meta"], Entry.file (demoEncode ["0001"])),
          (["proj", "chunks", "0001"], Entry.file [1]),
          (["proj", "chunks"], Entry.dir)]
      = some ([(["proj", "chunks", "x.meta"], Entry.file (demoEncode ["0002"])),
          (["proj", "chunks", "0002"], Entry.file [2]),
          (["proj", "chunks", "x.meta"], Entry.file (demoEncode ["0001"])),
          (["proj", "chunks", "0001"], Entry.file [1]),
          (["proj", "chunks"], Entry.dir)], none) ∧
    RetrieveFile demoEnv "x"
        [(["proj", "chunks", "x.meta"], Entry.file (demoEncode ["0002"])),
          (["proj", "chunks", "0002"], Entry.file [2]),
          (["proj", "chunks", "x.meta"], Entry.file (demoEncode ["0001"])),
          (["proj", "chunks", "0001"], Entry.file [1]),
          (["proj", "chunks"], Entry.dir)]
      = Except.ok [2] := by
  refine ⟨by decide, by decide, by decide, rfl, by decide, rfl⟩

/-- A filename stored by a successful `StoreFile` is a stored name of the disk. -/
theorem StoreFile_storedName (env : Env) (hjson : JsonRoundTrip env) (g : String)
    (d : List Byte) (fs fs1 : FS) (h : StoreFile env g d fs = some (fs1, none)) :
    StoredName env fs1 g := by
  obtain ⟨fs0, b, _, _, hm, hw⟩ := StoreFile_ok env g d fs fs1 h
  obtain ⟨rfl, _, _⟩ := osWriteFile_some env _ fs1 _ _ hw
  obtain ⟨m1, hu, hh⟩ := hjson _ _ _ hm
  exact ⟨b, m1, partitionSpec d 4096, osReadFile_of_stat env _ _ b (stat_cons_self env _ _ _),
    hu, hh⟩

end P2P
namespace Bootstrap

/-! ## Properties of the directory service -/

theorem lookup_eq_some_of_mem (m : PeerMap) (h : UniqueKeys m) (k : String) (v : PeerInfo)
    (hm : (k, v) ∈ m) : mapGet m k = some v := by
  induction m with
  | nil => simp at hm
  | cons e rest ih =>
    obtain ⟨k1, v1⟩ := e
    simp only [UniqueKeys, List.map_cons, List.nodup_cons] at h
    simp only [mapGet, List.lookup]
    rcases List.mem_cons.1 hm with heq | hrest
    · simp only [Prod.mk.injEq] at heq
      obtain ⟨rfl, rfl⟩ := heq
      simp
    · have hne : k ≠ k1 := by
        intro hk
        subst hk
        exact h.1 (List.mem_map.2 ⟨(k, v), hrest, rfl⟩)
      have hb : (k == k1) = false := by simpa using hne
      rw [hb]
      exact ih h.2 hrest

theorem mem_of_lookup_eq_some (m : PeerMap) (k : String) (v : PeerInfo)
    (h : mapGet m k = some v) : (k, v) ∈ m := by
  induction m with
  | nil => simp [mapGet] at h
  | cons e rest ih =>
    obtain ⟨k1, v1⟩ := e
    simp only [mapGet, List.lookup] at h
    by_cases hk : k = k1
    · subst hk
      simp only [beq_self_eq_true, Option.some.injEq] at h
      subst h
      exact List.mem_cons_self _ _
    · have hb : (k == k1) = false := by simpa using hk
      rw [hb] at h
      exact List.mem_cons_of_mem _ (ih h)

theorem mapGet_cons (k1 k : String) (v1 : PeerInfo) (rest : PeerMap) :
    mapGet ((k1, v1) :: rest) k = if k = k1 then some v1 else mapGet rest k := by
  by_cases h : k = k1
  · simp [mapGet, List.lookup, h]
  · have hb : (k == k1) = false := by simpa using h
    simp [mapGet, List.lookup, h, hb]

theorem mapGet_mapSet (m : PeerMap) (k : String) (v : PeerInfo) (k2 : String) :
    mapGet (mapSet m k v) k2 = if k2 = k then some v else mapGet m k2 := by
  induction m with
  | nil =>
    rw [mapSet, mapGet_cons]
  | cons e rest ih =>
    obtain ⟨k1, v1⟩ := e
    simp only [mapSet]
    by_cases h1 : k1 = k
    · subst h1
      simp only [if_true, mapGet_cons]
      split <;> rfl
    · simp only [if_neg h1, mapGet_cons, ih]
      by_cases h2 : k2 = k
      · subst h2
        have : k2 ≠ k1 := fun h => h1 h.symm
        simp [this]
      · simp [h2]

theorem mem_iff_mapGet (m : PeerMap) (h : UniqueKeys m) (e : String × PeerInfo) :
    e ∈ m ↔ mapGet m e.1 = some e.2 :=
  ⟨fun hm => lookup_eq_some_of_mem m h e.1 e.2 hm, fun hg => mem_of_lookup_eq_some m e.1 e.2 hg⟩

theorem keys_mapSet (m : PeerMap) (k : String) (v : PeerInfo) :
    (mapSet m k v).map Prod.fst
      = if k ∈ m.map Prod.fst then m.map Prod.fst else m.map Prod.fst ++ [k] := by
  induction m with
  | nil => simp [mapSet]
  | cons e rest ih =>
    obtain ⟨k1, v1⟩ := e
    simp only [mapSet]
    by_cases h1 : k1 = k
    · subst h1
      simp
    · have h2 : k ≠ k1 := fun h => h1 h.symm
      simp only [if_neg h1, List.map_cons, ih, List.mem_cons, h2, false_or]
      split <;> simp

theorem uniqueKeys_mapSet (m : PeerMap) (h : UniqueKeys m) (k : String) (v : PeerInfo) :
    UniqueKeys (mapSet m k v) := by
  unfold UniqueKeys at h ⊢
  rw [keys_mapSet]
  split
  · exact h
  · rename_i hk
    exact List.nodup_append.2 ⟨h, List.nodup_singleton k, by
      intro a ha hb
      simp only [List.mem_singleton] at hb
      exact hk (hb ▸ ha)⟩

theorem uniqueKeys_filter (m : PeerMap) (h : UniqueKeys m) (p : String × PeerInfo → Bool) :
    UniqueKeys (m.filter p) :=
  List.Nodup.sublist ((List.filter_sublist m).map Prod.fst) h

theorem mapGet_filter (m : PeerMap) (h : UniqueKeys m) (p : String × PeerInfo → Bool)
    (k : String) :
    mapGet (m.filter p) k = (mapGet m k).filter (fun v => p (k, v)) := by
  have key : ∀ v, mapGet (m.filter p) k = some v ↔ (mapGet m k).filter (fun v => p (k, v)) = some v := by
    intro v
    rw [← mem_iff_mapGet (m.filter p) (uniqueKeys_filter m h p) (k, v), List.mem_filter,
      mem_iff_mapGet m h (k, v)]
    cases hg : mapGet m k with
    | none => simp [Option.filter]
    | some w =>
      simp only [Option.some.injEq, Option.filter]
      constructor
      · rintro ⟨rfl, hp⟩
        simp [hp]
      · intro hf
        split at hf
        · rename_i hp
          cases hf
          exact ⟨rfl, hp⟩
        · cases hf
  cases hl : mapGet (m.filter p) k with
  | some v => exact ((key v).1 hl).symm
  | none =>
    cases hr : (mapGet m k).filter (fun v => p (k, v)) with
    | none => rfl
    | some v => rw [(key v).2 hr] at hl; cases hl

theorem tableOk_mapSet (m : PeerMap) (h : TableOk m) (k : String) (v : PeerInfo)
    (hv : v.ID = k) : TableOk (mapSet m k v) := by
  refine ⟨uniqueKeys_mapSet m h.1 k v, ?_⟩
  intro e he
  rw [mem_iff_mapGet _ (uniqueKeys_mapSet m h.1 k v), mapGet_mapSet] at he
  split at he
  · rename_i hk
    cases he
    rw [hk]; exact hv
  · exact h.2 e ((mem_iff_mapGet m h.1 e).2 he)

theorem tableOk_filter (m : PeerMap) (h : TableOk m) (p : String × PeerInfo → Bool) :
    TableOk (m.filter p) :=
  ⟨uniqueKeys_filter m h.1 p, fun e he => h.2 e (List.mem_filter.1 he).1⟩

theorem clamp_gt (d : Int) :
    (if d > 9223372036854775807 then (9223372036854775807 : Int)
      else if d < -9223372036854775808 then -9223372036854775808 else d) > 600000000000
      ↔ d > 600000000000 := by
  split_ifs <;> omega

/-- The comparison made by the sweep is the comparison of the exact difference. -/
theorem Sub_gt_ten_minutes (now t : Time) : Sub now t > 10 * Minute ↔ now - t > 10 * Minute :=
  clamp_gt (now - t)

theorem sweep_fold (now : Time) : ∀ (entries table : PeerMap),
    entries.foldl
        (fun table entry =>
          if Sub now entry.2.LastSeen > 10 * Minute then mapDelete table entry.1 else table)
        table
      = table.filter (fun e => decide (∀ x ∈ entries,
          Sub now x.2.LastSeen > 10 * Minute → x.1 ≠ e.1))
  | [], table => by simp
  | x :: rest, table => by
    rw [List.foldl_cons, sweep_fold now rest]
    split
    · rename_i hx
      rw [mapDelete, List.filter_filter]
      apply List.filter_congr
      intro e _
      simp only [List.mem_cons, forall_eq_or_imp, hx, true_implies, Bool.decide_and]
      rw [Bool.and_comm]
      congr 1
      simp [eq_comm]
    · rename_i hx
      apply List.filter_congr
      intro e _
      simp [hx]

/-- On a Go map a sweep keeps exactly the entries that have not expired. -/
theorem sweep_eq_filter (peers : PeerMap) (h : UniqueKeys peers) (now : Time) :
    sweep peers now
      = peers.filter (fun e => decide (¬ (now - e.2.LastSeen > 10 * Minute))) := by
  rw [sweep, sweep_fold]
  apply List.filter_congr
  intro e he
  rw [decide_eq_decide]
  constructor
  · intro hall hexp
    exact hall e he ((Sub_gt_ten_minutes now e.2.LastSeen).2 hexp) rfl
  · intro hnot x hx hexp hkey
    have h1 := (mem_iff_mapGet peers h x).1 hx
    have h2 := (mem_iff_mapGet peers h e).1 he
    rw [hkey, h2, Option.some.injEq] at h1
    rw [h1] at hnot
    exact hnot ((Sub_gt_ten_minutes now x.2.LastSeen).1 hexp)

theorem tableOk_handleConnection (peers : PeerMap) (h : TableOk peers)
    (incoming : Option Request) (now : Time) :
    TableOk (handleConnection peers incoming now).1 := by
  cases incoming with
  | none => exact h
  | some msg =>
    simp only [handleConnection]
    split
    · exact tableOk_mapSet peers h _ _ rfl
    · split
      · exact h
      · split
        · cases hg : mapGet peers msg.ID with
          | none => exact h
          | some peer =>
            have hid : peer.ID = msg.ID :=
              h.2 (msg.ID, peer) (mem_of_lookup_eq_some peers msg.ID peer hg)
            exact tableOk_mapSet peers h _ _ hid
        · exact h

theorem tableOk_step (peers : PeerMap) (h : TableOk peers) (e : Event) :
    TableOk (step peers e) := by
  cases e with
  | request incoming now => exact tableOk_handleConnection peers h incoming now
  | tick now =>
    simp only [step]
    rw [sweep_eq_filter peers h.1]
    exact tableOk_filter peers h _

theorem tableOk_run : ∀ (events : List Event) (peers : PeerMap), TableOk peers →
    TableOk (run peers events)
  | [], _, h => h
  | e :: rest, peers, h => tableOk_run rest (step peers e) (tableOk_step peers h e)

theorem tableOk_empty : TableOk emptyTable :=
  ⟨List.nodup_nil, fun _ he => by simp [emptyTable] at he⟩

/-- The records of a table in good order are pairwise different. -/
theorem records_nodup (peers : PeerMap) (h : TableOk peers) : (peers.map Prod.snd).Nodup := by
  have hkeys : peers.map Prod.fst = (peers.map Prod.snd).map PeerInfo.ID := by
    rw [List.map_map]
    apply List.map_congr_left
    intro e he
    exact (h.2 e he).symm
  have hn : ((peers.map Prod.snd).map PeerInfo.ID).Nodup := hkeys ▸ h.1
  exact List.Nodup.of_map _ hn

/-- A record is in the table exactly when it is stored under its own ID. -/
theorem mem_records_iff (peers : PeerMap) (h : TableOk peers) (r : PeerInfo) :
    r ∈ peers.map Prod.snd ↔ mapGet peers r.ID = some r := by
  constructor
  · intro hr
    obtain ⟨e, he, rfl⟩ := List.mem_map.1 hr
    rw [h.2 e he]
    exact (mem_iff_mapGet peers h.1 e).1 he
  · intro hg
    exact List.mem_map.2 ⟨(r.ID, r), mem_of_lookup_eq_some peers r.ID r hg, rfl⟩

/-- C8: `get_peers` self-exclusion and completeness.  On every table reached
from the empty table by any sequence of requests (`register`, `heartbeat`,
`get_peers`, unknown or undecodable ones) and eviction sweeps, and for every
caller id, the `get_peers` reply lists, each exactly once, precisely the
records of the table whose ID differs from the caller's id, it never lists a
record whose ID is the caller's (also right after the caller's own `register`),
and the table is left unchanged. -/
theorem C8_get_peers_excludes_caller (events : List Event) (caller addr : String)
    (now : Time) :
    ∃ list : List PeerInfo,
      handleConnection (run emptyTable events)
          (some { Typ := "get_peers", ID := caller, Addr := addr }) now
        = (run emptyTable events, some (Reply.peers list)) ∧
      list.Nodup ∧
      ((run emptyTable events).map Prod.snd).Nodup ∧
      (∀ r, r ∈ list ↔ (r ∈ (run emptyTable events).map Prod.snd ∧ r.ID ≠ caller)) ∧
      (∀ r, list.count r
        = if r ∈ (run emptyTable events).map Prod.snd ∧ r.ID ≠ caller then 1 else 0) ∧
      (∀ r ∈ list, r.ID ≠ caller) ∧
      (∀ (addr0 : String) (t0 : Time),
        mapGet (run emptyTable (events ++
            [Event.request (some { Typ := "register", ID := caller, Addr := addr0 }) t0])) caller
          = some { ID := caller, Addr := addr0, LastSeen := t0 } ∧
        ∀ list1, (handleConnection (run emptyTable (events ++
            [Event.request (some { Typ := "register", ID := caller, Addr := addr0 }) t0]))
            (some { Typ := "get_peers", ID := caller, Addr := addr }) now).2
              = some (Reply.peers list1) →
          ∀ r ∈ list1, r.ID ≠ caller) := by
  have hok := tableOk_run events emptyTable tableOk_empty
  have hrec := records_nodup _ hok
  have hmem : ∀ r, r ∈ ((run emptyTable events).map Prod.snd).filter
      (fun peer => decide (peer.ID ≠ caller))
        ↔ (r ∈ (run emptyTable events).map Prod.snd ∧ r.ID ≠ caller) := by
    intro r
    simp [List.mem_filter]
  have hnd : (((run emptyTable events).map Prod.snd).filter
      (fun peer => decide (peer.ID ≠ caller))).Nodup := hrec.filter _
  refine ⟨_, ?_, hnd, hrec, hmem, ?_, ?_, ?_⟩
  · simp [handleConnection]
  · intro r
    by_cases hr : r ∈ (run emptyTable events).map Prod.snd ∧ r.ID ≠ caller
    · rw [if_pos hr]
      exact List.count_eq_one_of_mem hnd ((hmem r).2 hr)
    · rw [if_neg hr]
      exact List.count_eq_zero_of_not_mem (fun h => hr ((hmem r).1 h))
  · intro r hr
    exact ((hmem r).1 hr).2
  · intro addr0 t0
    constructor
    · rw [run, List.foldl_append]
      simp only [List.foldl_cons, List.foldl_nil, step, handleConnection, if_true]
      rw [mapGet_mapSet, if_pos rfl]
    · intro list1 h1 r hr
      simp only [handleConnection] at h1
      rw [if_neg (by decide)] at h1
      simp only [if_true, Option.some.injEq, Reply.peers.injEq] at h1
      subst h1
      simpa using (List.mem_filter.1 hr).2

/-- C8 at the table holding peers `A` and `B`, asked by `A`. -/
theorem C8_get_peers_excludes_caller_witness :
    (handleConnection
        (run emptyTable
          [Event.request (some { Typ := "register", ID := "A", Addr := "127.0.0.1:9001" }) 1,
            Event.request (some { Typ := "register", ID := "B", Addr := "127.0.0.1:9002" }) 2])
        (some { Typ := "get_peers", ID := "A", Addr := "" }) 5).2
      = some (Reply.peers [{ ID := "B", Addr := "127.0.0.1:9002", LastSeen := 2 }]) := by
  obtain ⟨list, h, _⟩ := C8_get_peers_excludes_caller
    [Event.request (some { Typ := "register", ID := "A", Addr := "127.0.0.1:9001" }) 1,
      Event.request (some { Typ := "register", ID := "B", Addr := "127.0.0.1:9002" }) 2]
    "A" "" 5
  have hc : handleConnection
      (run emptyTable
        [Event.request (some { Typ := "register", ID := "A", Addr := "127.0.0.1:9001" }) 1,
          Event.request (some { Typ := "register", ID := "B", Addr := "127.0.0.1:9002" }) 2])
      (some { Typ := "get_peers", ID := "A", Addr := "" }) 5
        = ([("A", { ID := "A", Addr := "127.0.0.1:9001", LastSeen := 1 }),
            ("B", { ID := "B", Addr := "127.0.0.1:9002", LastSeen := 2 })],
          some (Reply.peers [{ ID := "B", Addr := "127.0.0.1:9002", LastSeen := 2 }])) := by
    decide
  rw [hc]

/-- C10: `register` is last-writer-wins with one record per ID.  For every table
of the server, every id and every addr (neither is validated), handling
`register(id, addr)` at time `now` replies exactly `{status: ok}` and yields a
table that maps `id` to exactly the record `{id, addr, now}`, whatever record
`id` had before, keeps the record of every other ID unchanged, and holds at
most one record per ID. -/
theorem C10_register_last_writer_wins (peers : PeerMap) (hok : TableOk peers)
    (id addr : String) (now : Time) :
    ∃ peers1 : PeerMap,
      handleConnection peers (some { Typ := "register", ID := id, Addr := addr }) now
        = (peers1, some (Reply.status [("status", "ok")])) ∧
      mapGet peers1 id = some { ID := id, Addr := addr, LastSeen := now } ∧
      (∀ k, k ≠ id → mapGet peers1 k = mapGet peers k) ∧
      (∀ r : PeerInfo, r.ID ≠ id → (r ∈ peers1.map Prod.snd ↔ r ∈ peers.map Prod.snd)) ∧
      (∀ r ∈ peers1.map Prod.snd, r.ID = id → r = { ID := id, Addr := addr, LastSeen := now }) ∧
      UniqueKeys peers1 ∧
      ((peers1.map Prod.snd).map PeerInfo.ID).Nodup := by
  have hok1 : TableOk (mapSet peers id { ID := id, Addr := addr, LastSeen := now }) :=
    tableOk_mapSet peers hok _ _ rfl
  refine ⟨mapSet peers id { ID := id, Addr := addr, LastSeen := now }, ?_, ?_, ?_, ?_, ?_,
    hok1.1, ?_⟩
  · simp [handleConnection]
  · rw [mapGet_mapSet, if_pos rfl]
  · intro k hk
    rw [mapGet_mapSet, if_neg hk]
  · intro r hr
    rw [mem_records_iff _ hok1, mem_records_iff _ hok, mapGet_mapSet, if_neg hr]
  · intro r hr hid
    rw [mem_records_iff _ hok1, mapGet_mapSet, if_pos hid] at hr
    cases hr
    rfl
  · have hkeys : (mapSet peers id { ID := id, Addr := addr, LastSeen := now }).map Prod.fst
        = ((mapSet peers id { ID := id, Addr := addr, LastSeen := now }).map Prod.snd).map
            PeerInfo.ID := by
      rw [List.map_map]
      apply List.map_congr_left
      intro e he
      exact (hok1.2 e he).symm
    exact hkeys ▸ hok1.1

/-- C10 at a table where `A` is registered and registers again with a new address. -/
theorem C10_register_last_writer_wins_witness :
    ∃ peers1 : PeerMap,
      handleConnection [("A", { ID := "A", Addr := "10.0.0.1:1", LastSeen := 1 })]
          (some { Typ := "register", ID := "A", Addr := "10.0.0.2:2" }) 7
        = (peers1, some (Reply.status [("status", "ok")])) ∧
      mapGet peers1 "A" = some { ID := "A", Addr := "10.0.0.2:2", LastSeen := 7 } := by
  obtain ⟨peers1, h1, h2, _⟩ := C10_register_last_writer_wins
    [("A", { ID := "A", Addr := "10.0.0.1:1", LastSeen := 1 })]
    (by decide) "A" "10.0.0.2:2" 7
  exact ⟨peers1, h1, h2⟩

/-! ## Eviction -/

theorem mapGet_sweep (peers : PeerMap) (h : UniqueKeys peers) (now : Time) (k : String) :
    mapGet (sweep peers now) k
      = (mapGet peers k).filter (fun r => decide (¬ (now - r.LastSeen > 10 * Minute))) := by
  rw [sweep_eq_filter peers h, mapGet_filter peers h]

/-- An event that is not a `register` or `heartbeat` of `id` leaves the record
of `id` alone, except that a sweep removes it when it has expired. -/
theorem mapGet_step (peers : PeerMap) (hok : TableOk peers) (id : String) (e : Event)
    (hno : refreshes id e = false) :
    mapGet (step peers e) id =
      match e with
      | Event.tick s =>
        (mapGet peers id).filter (fun r => decide (¬ (s - r.LastSeen > 10 * Minute)))
      | Event.request _ _ => mapGet peers id := by
  cases e with
  | tick s => exact mapGet_sweep peers hok.1 s id
  | request incoming now =>
    cases incoming with
    | none => rfl
    | some msg =>
      simp only [refreshes, decide_eq_false_iff_not, not_and] at hno
      simp only [step, handleConnection]
      split
      · rename_i h1
        rw [mapGet_mapSet, if_neg (fun h => hno (Or.inl h1) h.symm)]
      · split
        · rfl
        · split
          · rename_i h3
            cases hg : mapGet peers msg.ID with
            | none => rfl
            | some peer =>
              simp only []
              rw [mapGet_mapSet, if_neg (fun h => hno (Or.inr h3) h.symm)]
          · rfl

theorem filter_expired (r0 : PeerInfo) (s : Time) (h : s - r0.LastSeen > 10 * Minute) :
    (some r0).filter (fun r => decide (¬ (s - r.LastSeen > 10 * Minute))) = none := by
  simp only [Option.filter]
  rw [if_neg]
  intro hd
  exact (of_decide_eq_true hd) h

theorem filter_kept (r0 : PeerInfo) (s : Time) (h : ¬ (s - r0.LastSeen > 10 * Minute)) :
    (some r0).filter (fun r => decide (¬ (s - r.LastSeen > 10 * Minute))) = some r0 := by
  simp only [Option.filter]
  rw [if_pos]
  exact decide_eq_true h

theorem run_absent (id : String) : ∀ (events : List Event) (peers : PeerMap),
    TableOk peers → (∀ e ∈ events, refreshes id e = false) → mapGet peers id = none →
      mapGet (run peers events) id = none
  | [], _, _, _, h => h
  | e :: rest, peers, hok, hno, h => by
    apply run_absent id rest (step peers e) (tableOk_step peers hok e)
      (fun x hx => hno x (List.mem_cons_of_mem _ hx))
    rw [mapGet_step peers hok id e (hno e (List.mem_cons_self _ _)), h]
    cases e <;> rfl

theorem run_expired (id : String) (r0 : PeerInfo) : ∀ (events : List Event) (peers : PeerMap),
    TableOk peers → (∀ e ∈ events, refreshes id e = false) → mapGet peers id = some r0 →
      (∃ s, Event.tick s ∈ events ∧ s - r0.LastSeen > 10 * Minute) →
      mapGet (run peers events) id = none
  | [], _, _, _, _, hex => by
    obtain ⟨s, hs, _⟩ := hex
    simp at hs
  | e :: rest, peers, hok, hno, h, hex => by
    have hstep := mapGet_step peers hok id e (hno e (List.mem_cons_self _ _))
    have hok1 := tableOk_step peers hok e
    have hno1 : ∀ x ∈ rest, refreshes id x = false := fun x hx => hno x (List.mem_cons_of_mem _ hx)
    show mapGet (run (step peers e) rest) id = none
    cases e with
    | tick s1 =>
      simp only [h] at hstep
      by_cases hexp : s1 - r0.LastSeen > 10 * Minute
      · rw [filter_expired r0 s1 hexp] at hstep
        exact run_absent id rest _ hok1 hno1 hstep
      · rw [filter_kept r0 s1 hexp] at hstep
        apply run_expired id r0 rest _ hok1 hno1 hstep
        obtain ⟨s, hs, hgt⟩ := hex
        rcases List.mem_cons.1 hs with heq | hin
        · cases heq
          exact absurd hgt hexp
        · exact ⟨s, hin, hgt⟩
    | request incoming now =>
      simp only [h] at hstep
      apply run_expired id r0 rest _ hok1 hno1 hstep
      obtain ⟨s, hs, hgt⟩ := hex
      rcases List.mem_cons.1 hs with heq | hin
      · cases heq
      · exact ⟨s, hin, hgt⟩

theorem run_kept (id : String) (r0 : PeerInfo) : ∀ (events : List Event) (peers : PeerMap),
    TableOk peers → (∀ e ∈ events, refreshes id e = false) → mapGet peers id = some r0 →
      (∀ s, Event.tick s ∈ events → ¬ (s - r0.LastSeen > 10 * Minute)) →
      mapGet (run peers events) id = some r0
  | [], _, _, _, h, _ => h
  | e :: rest, peers, hok, hno, h, hall => by
    have hstep := mapGet_step peers hok id e (hno e (List.mem_cons_self _ _))
    have hok1 := tableOk_step peers hok e
    have hno1 : ∀ x ∈ rest, refreshes id x = false := fun x hx => hno x (List.mem_cons_of_mem _ hx)
    show mapGet (run (step peers e) rest) id = some r0
    apply run_kept id r0 rest _ hok1 hno1 _ (fun s hs => hall s (List.mem_cons_of_mem _ hs))
    cases e with
    | tick s1 =>
      simp only [h] at hstep
      rw [filter_kept r0 s1 (hall s1 (List.mem_cons_self _ _))] at hstep
      exact hstep
    | request incoming now =>
      simpa only [h] using hstep

theorem later_iff (s t0 : Int) : s > t0 + 600000000000 ↔ s - t0 > 600000000000 := by omega

theorem earlier_imp (s t0 : Int) (h : s < t0 + 600000000000) : ¬ (s - t0 > 600000000000) := by
  omega

/-- C9: membership TTL.  A sweep at time `now` removes exactly the records with
`now - lastSeen > 10 minutes` and leaves every other record unchanged.  Hence a
peer registered at time `t0` that neither heartbeats nor registers again is
absent from another caller's `get_peers` reply once a sweep has run at a time
later than `t0 + 10 minutes`, and is present in that reply as long as every
sweep has run at a time earlier than `t0 + 10 minutes`. -/
theorem C9_membership_ttl (peers : PeerMap) (hok : TableOk peers) :
    (∀ now, sweep peers now
      = peers.filter (fun e => decide (¬ (now - e.2.LastSeen > 10 * Minute)))) ∧
    (∀ now k, mapGet (sweep peers now) k
      = (mapGet peers k).filter (fun r => decide (¬ (now - r.LastSeen > 10 * Minute)))) ∧
    (∀ (id addr : String) (t0 : Time) (events : List Event) (caller addr1 : String)
        (now : Time),
      caller ≠ id → (∀ e ∈ events, refreshes id e = false) →
      ∃ list : List PeerInfo,
        (handleConnection
            (run (handleConnection peers
              (some { Typ := "register", ID := id, Addr := addr }) t0).1 events)
            (some { Typ := "get_peers", ID := caller, Addr := addr1 }) now).2
          = some (Reply.peers list) ∧
        ((∃ s, Event.tick s ∈ events ∧ s > t0 + 10 * Minute) → ∀ r ∈ list, r.ID ≠ id) ∧
        ((∀ s, Event.tick s ∈ events → s < t0 + 10 * Minute) →
          { ID := id, Addr := addr, LastSeen := t0 } ∈ list)) := by
  refine ⟨fun now => sweep_eq_filter peers hok.1 now,
    fun now k => mapGet_sweep peers hok.1 now k, ?_⟩
  intro id addr t0 events caller addr1 now hcaller hno
  have hreg : (handleConnection peers (some { Typ := "register", ID := id, Addr := addr }) t0).1
      = mapSet peers id { ID := id, Addr := addr, LastSeen := t0 } := by
    simp [handleConnection]
  have hok1 : TableOk (mapSet peers id { ID := id, Addr := addr, LastSeen := t0 }) :=
    tableOk_mapSet peers hok _ _ rfl
  have hget1 : mapGet (mapSet peers id { ID := id, Addr := addr, LastSeen := t0 }) id
      = some { ID := id, Addr := addr, LastSeen := t0 } := by
    rw [mapGet_mapSet, if_pos rfl]
  have hokr := tableOk_run events _ hok1
  rw [hreg]
  refine ⟨((run (mapSet peers id { ID := id, Addr := addr, LastSeen := t0 }) events).map
      Prod.snd).filter (fun peer => decide (peer.ID ≠ caller)), ?_, ?_, ?_⟩
  · simp [handleConnection]
  · rintro ⟨s, hs, hgt⟩ r hr hid
    have habs := run_expired id { ID := id, Addr := addr, LastSeen := t0 } events _ hok1 hno
      hget1 ⟨s, hs, (later_iff s t0).1 hgt⟩
    have hmem := (mem_records_iff _ hokr r).1 (List.mem_filter.1 hr).1
    rw [hid, habs] at hmem
    cases hmem
  · intro hall
    have hkept := run_kept id { ID := id, Addr := addr, LastSeen := t0 } events _ hok1 hno
      hget1 (fun s hs => earlier_imp s t0 (hall s hs))
    apply List.mem_filter.2
    refine ⟨(mem_records_iff _ hokr _).2 hkept, ?_⟩
    simpa using fun h => hcaller h.symm

/-- C9 at a table holding one peer last seen at time 0, swept one nanosecond
after ten minutes. -/
theorem C9_membership_ttl_witness :
    sweep [("B", { ID := "B", Addr := "127.0.0.1:9002", LastSeen := 0 })] 600000000001 = [] :=
  ((C9_membership_ttl [("B", { ID := "B", Addr := "127.0.0.1:9002", LastSeen := 0 })]
    (by decide)).1 600000000001).trans (by decide)

end Bootstrap
namespace Bootstrap

/-! ## Heartbeat and unknown requests -/

/-- C11: heartbeat refreshes liveness only.  For every table and id, handling
`heartbeat(id)` at time `now` writes no reply.  When `id` is in the table, the
record of `id` keeps its ID and address and gets `lastSeen = now`, every other
key keeps its record, and the keys of the table are the same (on a table of
the server, the records of the other IDs are the same).  When `id` is not in
the table, the table is returned as it was: nothing is registered. -/
theorem C11_heartbeat_refreshes_only (peers : PeerMap) (id addr : String) (now : Time) :
    (handleConnection peers (some { Typ := "heartbeat", ID := id, Addr := addr }) now).2 = none ∧
    (∀ r, mapGet peers id = some r →
      mapGet (handleConnection peers
          (some { Typ := "heartbeat", ID := id, Addr := addr }) now).1 id
        = some { ID := r.ID, Addr := r.Addr, LastSeen := now } ∧
      (∀ k, k ≠ id →
        mapGet (handleConnection peers
            (some { Typ := "heartbeat", ID := id, Addr := addr }) now).1 k
          = mapGet peers k) ∧
      (handleConnection peers
          (some { Typ := "heartbeat", ID := id, Addr := addr }) now).1.map Prod.fst
        = peers.map Prod.fst ∧
      (TableOk peers →
        TableOk (handleConnection peers
          (some { Typ := "heartbeat", ID := id, Addr := addr }) now).1 ∧
        ∀ r1 : PeerInfo, r1.ID ≠ id →
          (r1 ∈ (handleConnection peers
              (some { Typ := "heartbeat", ID := id, Addr := addr }) now).1.map Prod.snd
            ↔ r1 ∈ peers.map Prod.snd))) ∧
    (mapGet peers id = none →
      (handleConnection peers (some { Typ := "heartbeat", ID := id, Addr := addr }) now).1
        = peers) := by
  have hb : ∀ r, mapGet peers id = some r →
      handleConnection peers (some { Typ := "heartbeat", ID := id, Addr := addr }) now
        = (mapSet peers id { ID := r.ID, Addr := r.Addr, LastSeen := now }, none) := by
    intro r hr
    simp [handleConnection, hr]
  have hn : mapGet peers id = none →
      handleConnection peers (some { Typ := "heartbeat", ID := id, Addr := addr }) now
        = (peers, none) := by
    intro hr
    simp [handleConnection, hr]
  refine ⟨?_, ?_, ?_⟩
  · cases hg : mapGet peers id with
    | none => rw [hn hg]
    | some r => rw [hb r hg]
  · intro r hr
    rw [hb r hr]
    refine ⟨?_, ?_, ?_, ?_⟩
    · rw [mapGet_mapSet, if_pos rfl]
    · intro k hk
      rw [mapGet_mapSet, if_neg hk]
    · rw [keys_mapSet, if_pos]
      exact List.mem_map.2 ⟨(id, r), mem_of_lookup_eq_some peers id r hr, rfl⟩
    · intro hok
      have hid : r.ID = id := hok.2 (id, r) (mem_of_lookup_eq_some peers id r hr)
      have hok1 : TableOk (mapSet peers id { ID := r.ID, Addr := r.Addr, LastSeen := now }) :=
        tableOk_mapSet peers hok _ _ hid
      refine ⟨hok1, ?_⟩
      intro r1 hr1
      rw [mem_records_iff _ hok1, mem_records_iff _ hok, mapGet_mapSet, if_neg hr1]
  · intro hr
    rw [hn hr]

/-- C11 at a table holding `A`, last seen at time 1, with a heartbeat at time 9. -/
theorem C11_heartbeat_refreshes_only_witness :
    mapGet (handleConnection [("A", { ID := "A", Addr := "10.0.0.1:1", LastSeen := 1 })]
        (some { Typ := "heartbeat", ID := "A", Addr := "" }) 9).1 "A"
      = some { ID := "A", Addr := "10.0.0.1:1", LastSeen := 9 } :=
  ((C11_heartbeat_refreshes_only [("A", { ID := "A", Addr := "10.0.0.1:1", LastSeen := 1 })]
    "A" "" 9).2.1 { ID := "A", Addr := "10.0.0.1:1", LastSeen := 1 } (by decide)).1

/-- C12: unknown request handling.  For every decoded request whose type is not
exactly `register`, `get_peers` or `heartbeat` (the empty type of a record
without one included), the reply is exactly the map
`{status: "error", error: "unknown request"}` and the table after the request
is the table before it. -/
theorem C12_unknown_request (peers : PeerMap) (msg : Request) (now : Time)
    (h1 : msg.Typ ≠ "register") (h2 : msg.Typ ≠ "get_peers") (h3 : msg.Typ ≠ "heartbeat") :
    handleConnection peers (some msg) now
      = (peers, some (Reply.status [("status", "error"), ("error", "unknown request")])) := by
  simp [handleConnection, h1, h2, h3]

/-- C12 at a request without a type. -/
theorem C12_unknown_request_witness :
    handleConnection [("A", { ID := "A", Addr := "10.0.0.1:1", LastSeen := 1 })]
        (some { Typ := "", ID := "A", Addr := "" }) 9
      = ([("A", { ID := "A", Addr := "10.0.0.1:1", LastSeen := 1 })],
          some (Reply.status [("status", "error"), ("error", "unknown request")])) :=
  C12_unknown_request [("A", { ID := "A", Addr := "10.0.0.1:1", LastSeen := 1 })]
    { Typ := "", ID := "A", Addr := "" } 9 (by decide) (by decide) (by decide)

end Bootstrap
